import Mathlib

/-!
Verification development for the Shopify theme deployment manager.

The definitions below are a shallow embedding of the JavaScript sources:
  * `src/src/utils/versioning.js`   (version engine)
  * `src/src/utils/backup.js`       (backup manager and capacity enforcer)
  * `src/src/modes/production.js`   (production deployment orchestrator)
  * the retry / poll module (`withRetry`, `pollUntil`)

JavaScript strings are modelled as Lean `String` and, where character level
reasoning is needed, as `List Char`.  JavaScript numbers that the code only
ever uses as non-negative integers (version components, theme ids, counts,
millisecond delays) are modelled as `Nat`.  The published role string is
`"main"`, exactly as in the source.
-/

namespace STDM

/-! ### JavaScript primitives -/

/-- Decimal digit character for `n < 10` (model of JS number rendering). -/
def digitChar : Nat → Char
  | 0 => '0' | 1 => '1' | 2 => '2' | 3 => '3' | 4 => '4'
  | 5 => '5' | 6 => '6' | 7 => '7' | 8 => '8' | 9 => '9'
  | _ => '?'

/-- Fuel-driven decimal rendering (structural recursion so that the kernel
can evaluate it). -/
def natDigitsAux : Nat → Nat → List Char
  | 0, _ => []
  | fuel + 1, n =>
    if n < 10 then [digitChar n]
    else natDigitsAux fuel (n / 10) ++ [digitChar (n % 10)]

/-- Decimal representation of a non-negative integer as a character list:
model of JavaScript `String(n)` / template interpolation for the integers
this code base renders.  `n + 1` units of fuel always suffice. -/
def natDigits (n : Nat) : List Char :=
  natDigitsAux (n + 1) n

/-- Numeric value of a list of decimal digit characters read left to right. -/
def digitsToNat (ds : List Char) : Nat :=
  ds.foldl (fun n c => n * 10 + (c.toNat - 48)) 0

/-- Model of `parseInt(s, 10) || 0` on the strings this code feeds it
(digit prefixes; a string with no leading digit yields `NaN`, which the
`|| 0` turns into `0`). -/
def jsParseIntOr0 (cs : List Char) : Nat :=
  digitsToNat (cs.takeWhile Char.isDigit)

/-- Model of JavaScript `"...".split('.')` on a character list. -/
def splitOnDot : List Char → List (List Char)
  | [] => [[]]
  | c :: rest =>
    if c = '.' then [] :: splitOnDot rest
    else
      match splitOnDot rest with
      | [] => [[c]]
      | s :: ss => (c :: s) :: ss

/-- Model of `String(n).padStart(2, '0')` for a non-negative integer. -/
def pad2 (n : Nat) : List Char :=
  if n < 10 then '0' :: natDigits n else natDigits n

/-! ### Version engine (`src/src/utils/versioning.js`) -/

/-- Parsed `{major, minor, patch}` components. -/
structure ParsedVersion where
  major : Nat
  minor : Nat
  patch : Nat
deriving DecidableEq

/-- Function `parseVersion` on the character list of a version string: split on `.`,
`parseInt` each part, missing parts default to `0` (source
`versioning.js` lines 36-47). -/
def parseVersionChars (cs : List Char) : ParsedVersion :=
  if cs = [] then ⟨0, 0, 0⟩
  else
    let parts := (splitOnDot cs).map jsParseIntOr0
    ⟨parts.getD 0 0, parts.getD 1 0, parts.getD 2 0⟩

/-- Function `parseVersion` (source `versioning.js` lines 36-47). -/
def parseVersion (version : String) : ParsedVersion :=
  parseVersionChars version.data

/-- Function `formatVersion` (source `versioning.js` lines 57-71): three formats,
`X.X.X` unpadded, `X.X.XX` patch padded, anything else (the `X.XX.XX`
default) minor and patch padded. -/
def formatVersion (major minor patch : Nat) (format : String) : String :=
  if format = "X.X.X" then
    String.mk (natDigits major ++ '.' :: natDigits minor ++ '.' :: natDigits patch)
  else if format = "X.X.XX" then
    String.mk (natDigits major ++ '.' :: natDigits minor ++ '.' :: pad2 patch)
  else
    String.mk (natDigits major ++ '.' :: pad2 minor ++ '.' :: pad2 patch)

/-- The "zero form" returned for an absent version and on major overflow
(source `versioning.js` lines 82-88 and 108-114). -/
def zeroForm (format : String) : String :=
  if format = "X.X.X" then "0.0.1"
  else if format = "X.X.XX" then "0.0.01"
  else "0.00.01"

/-- Function `bumpVersion` together with whether the overflow warning is emitted
(source `versioning.js` lines 79-120).  `none` / `some ""` model the JS
falsy inputs `null` / `''`. -/
def bumpVersionCore (currentVersion : Option String) (format : String) :
    String × Bool :=
  match currentVersion with
  | none => (zeroForm format, false)
  | some v =>
    if v = "" then (zeroForm format, false)
    else
      let p := parseVersion v
      let newPatch := p.patch + 1
      if newPatch ≥ 100 then
        let newMinor := p.minor + 1
        if newMinor ≥ 100 then
          let newMajor := p.major + 1
          if newMajor ≥ 100 then (zeroForm format, true)
          else (formatVersion newMajor 0 0 format, false)
        else (formatVersion p.major newMinor 0 format, false)
      else (formatVersion p.major p.minor newPatch format, false)

/-- Function `bumpVersion` (source `versioning.js` lines 79-120). -/
def bumpVersion (currentVersion : Option String) (format : String) : String :=
  (bumpVersionCore currentVersion format).1

/-- Function `compareVersions` (source `versioning.js` lines 235-250): `0` when either
argument is null/empty, otherwise the sign of the difference of the
`major*10000 + minor*100 + patch` encodings. -/
def compareVersions (version1 version2 : Option String) : Int :=
  match version1, version2 with
  | some v1, some v2 =>
    if v1 = "" ∨ v2 = "" then 0
    else
      let p1 := parseVersion v1
      let p2 := parseVersion v2
      let num1 := p1.major * 10000 + p1.minor * 100 + p1.patch
      let num2 := p2.major * 10000 + p2.minor * 100 + p2.patch
      if num1 < num2 then -1 else if num1 > num2 then 1 else 0
  | _, _ => 0

/-- Result record of `extractVersion`. -/
structure VersionInfo where
  hasVersion : Bool
  version : Option String
  baseName : String
deriving DecidableEq

/-- Split a character list at its last `[`, returning the part before and
the part after it.  Used to model the regex `\[(\d+\.\d+\.\d+)\]$`: since
the body of a match cannot contain `[`, the regex's `[` is necessarily
the last `[` of the string. -/
def lastOpenSplit : List Char → Option (List Char × List Char)
  | [] => none
  | c :: rest =>
    match lastOpenSplit rest with
    | some (pre, post) => some (c :: pre, post)
    | none => if c = '[' then some ([], rest) else none

/-- Whether a character list matches `\d+\.\d+\.\d+` exactly. -/
def isVersionBody (cs : List Char) : Bool :=
  match splitOnDot cs with
  | [a, b, c] =>
    !a.isEmpty && !b.isEmpty && !c.isEmpty && (a ++ b ++ c).all Char.isDigit
  | _ => false

/-- Model of JavaScript `String.prototype.trim`. -/
def trimChars (cs : List Char) : List Char :=
  ((cs.dropWhile Char.isWhitespace).reverse.dropWhile Char.isWhitespace).reverse

/-- Function `extractVersion` (source `versioning.js` lines 11-29): matches a trailing
`[d+.d+.d+]`, returning the tag and the name with the tag stripped and
trimmed; without such a trailing tag the name is returned unchanged. -/
def extractVersion (themeName : String) : VersionInfo :=
  let cs := themeName.data
  match cs.getLast? with
  | some ']' =>
    match lastOpenSplit cs.dropLast with
    | some (pre, inner) =>
      if isVersionBody inner then
        ⟨true, some (String.mk inner), String.mk (trimChars pre)⟩
      else ⟨false, none, themeName⟩
    | none => ⟨false, none, themeName⟩
  | _ => ⟨false, none, themeName⟩

/-! ### Retry executor (`withRetry`, retry module lines 51-91)

The operation is modelled as `fn : Nat → Except ε α`, giving the outcome of
the (0-indexed) attempt; `sR` is the `shouldRetry` classifier from the
options.  The returned list collects the backoff delays actually slept,
in order. -/

/-- The `for (attempt = 0; attempt <= retries; ...)` loop of `withRetry`.
`remaining` is `retries - attempt`, so `remaining = 0` is the
`attempt === opts.retries` exit that rethrows the last error: an error
there is rethrown without consulting `shouldRetry`, exactly as the
source's `attempt === opts.retries || !opts.shouldRetry(error)`. -/
def withRetryGo (initialDelay maxDelay multiplier : Nat) (sR : ε → Bool)
    (fn : Nat → Except ε α) : Nat → Nat → Except ε α × List Nat
  | 0, attempt =>
    match fn attempt with
    | .ok a => (.ok a, [])
    | .error e => (.error e, [])
  | r + 1, attempt =>
    match fn attempt with
    | .ok a => (.ok a, [])
    | .error e =>
      if sR e then
        let d := min (initialDelay * multiplier ^ attempt) maxDelay
        let res := withRetryGo initialDelay maxDelay multiplier sR fn r
          (attempt + 1)
        (res.1, d :: res.2)
      else (.error e, [])

/-- Function `withRetry` (retry module lines 51-91): result together with the list of
delays slept between attempts. -/
def withRetry (retries initialDelay maxDelay multiplier : Nat)
    (sR : ε → Bool) (fn : Nat → Except ε α) : Except ε α × List Nat :=
  withRetryGo initialDelay maxDelay multiplier sR fn retries 0

/-! ### Poll-until (`pollUntil`, retry module lines 99-133)

The condition is modelled as `cond : Nat → Except Unit (Option α)`: the
outcome of the n-th invocation, where `.error ()` models a thrown error,
`.ok none` a falsy result and `.ok (some a)` a truthy result `a`.  Model
time: each condition call is instantaneous and each sleep advances the
clock by `interval`, so the elapsed time at the n-th invocation is
`n * interval`. -/

/-- Poll outcome: the truthy value, or a timeout error carrying the
configured message and the elapsed time at the moment it is raised. -/
inductive PollResult (α : Type) where
  | ok (a : α)
  | timeoutErr (message : String) (elapsedAtFailure : Nat)
deriving DecidableEq

/-- The `while (Date.now() - startTime < timeout)` loop of `pollUntil`.
The fuel argument is a modelling artifact bounding the iteration count;
`timeout + 1` units are sufficient whenever `interval > 0` (each
continuing step needs `(n+1) * interval ≤ timeout`). -/
def pollUntilGo (cond : Nat → Except Unit (Option α))
    (interval timeout : Nat) (message : String) :
    Nat → Nat → PollResult α
  | 0, n => .timeoutErr message (n * interval)
  | fuel + 1, n =>
    if n * interval < timeout then
      match cond n with
      | .ok (some a) => .ok a
      | _ =>
        -- a thrown error or a falsy result: fall through to the next poll
        if n * interval + interval > timeout then
          .timeoutErr message (n * interval)
        else
          pollUntilGo cond interval timeout message fuel (n + 1)
    else .timeoutErr message (n * interval)

/-- Function `pollUntil` (retry module lines 99-133). -/
def pollUntil (cond : Nat → Except Unit (Option α))
    (interval timeout : Nat) (message : String) : PollResult α :=
  pollUntilGo cond interval timeout message (timeout + 1) 0

/-! ### Theme data model (spec section 3; the JS objects returned by the
Shopify CLI).  The published role is the string `"main"`, timestamps are
modelled as naturals ordered like `new Date(created_at)`. -/

structure Theme where
  id : Nat
  name : String
  role : String
  processing : Bool
  created_at : Nat
deriving DecidableEq

/-- Whether the first list is an initial segment of the second
(kernel-evaluable model of `String.prototype.startsWith`). -/
def startsWithChars : List Char → List Char → Bool
  | [], _ => true
  | _ :: _, [] => false
  | p :: ps, c :: cs => (p == c) && startsWithChars ps cs

/-- Model of JavaScript `s.startsWith(pfx)`. -/
def strStartsWith (s pfx : String) : Bool :=
  startsWithChars pfx.data s.data

/-- The filter of retention cleanup (source `backup.js` lines 205-207):
name starts with the prefix and the role is not the published one. -/
def isBackupTheme (pfx : String) (t : Theme) : Bool :=
  strStartsWith t.name pfx && t.role != "main"

/-- Stable insertion of a theme into a list ascending by `created_at`. -/
def insertByCreated (a : Theme) : List Theme → List Theme
  | [] => [a]
  | b :: bs =>
    if a.created_at ≤ b.created_at then a :: b :: bs
    else b :: insertByCreated a bs

/-- Model of the JS stable ascending in-place sort
`themes.sort((a, b) => new Date(a.created_at) - new Date(b.created_at))`. -/
def sortByCreated (ts : List Theme) : List Theme :=
  ts.foldr insertByCreated []

/-! ### Retention cleanup (`cleanupBackups`, `backup.js` lines 195-256) -/

/-- Return value of `cleanupBackups` plus the trace of the theme-delete
calls it issued (a call is issued also when the deletion then fails). -/
structure CleanupResult where
  deleted : List Theme
  remaining : List Theme
  deleteCalls : List Nat
deriving DecidableEq

/-- The `for (const theme of toDelete)` loop (source `backup.js` lines
229-244): skip a published theme, otherwise issue the delete and on
failure log and continue.  Returns the successfully deleted themes in
order and the ids of all issued delete calls. -/
def cleanupLoop (deleteFails : Nat → Bool) : List Theme → List Theme × List Nat
  | [] => ([], [])
  | t :: rest =>
    if t.role = "main" then cleanupLoop deleteFails rest
    else
      let res := cleanupLoop deleteFails rest
      if deleteFails t.id then (res.1, t.id :: res.2)
      else (t :: res.1, t.id :: res.2)

/-- Function `cleanupBackups` (source `backup.js` lines 195-256).  `deleteFails`
models which individual remote deletions fail. -/
def cleanupBackups (deleteFails : Nat → Bool) (themes : List Theme)
    (pfx : String) (retention : Nat) : CleanupResult :=
  let backupThemes := themes.filter (isBackupTheme pfx)
  if backupThemes.length ≤ retention then ⟨[], backupThemes, []⟩
  else
    let sorted := sortByCreated backupThemes
    let toDelete := sorted.take (sorted.length - retention)
    let toKeep := sorted.drop (sorted.length - retention)
    let res := cleanupLoop deleteFails toDelete
    ⟨res.1, toKeep, res.2⟩

/-! ### Capacity enforcement (`backup.js` lines 290-355) -/

/-- Return value of `checkThemeCapacity` (source `backup.js` lines
290-315).  Note that `backups` counts every theme whose name starts with
the prefix, with no role filter. -/
structure ThemeCapacity where
  current : Nat
  maxThemes : Nat
  available : Int
  backups : Nat
  canCreate : Bool
  needsCleanup : Bool
deriving DecidableEq

/-- Function `checkThemeCapacity` (source `backup.js` lines 290-315). -/
def checkThemeCapacity (themes : List Theme) (maxThemes : Nat)
    (pfx : String) : ThemeCapacity :=
  let currentCount := themes.length
  let backupCount := (themes.filter (fun t => strStartsWith t.name pfx)).length
  let availableSlots : Int := (maxThemes : Int) - (currentCount : Int)
  ⟨currentCount, maxThemes, availableSlots, backupCount,
    decide (0 < availableSlots),
    decide (availableSlots ≤ 0) && decide (0 < backupCount)⟩

/-- The distinct failures `ensureThemeCapacity` can raise, mirroring the
three error messages of the source. -/
inductive CapacityError where
  /-- Message "Theme limit reached (cur/max) and no backups to clean up. Please
  manually delete unused themes." (source `backup.js` lines 333-337) -/
  | themeLimitReachedNoBackups (current maxThemes : Nat)
  /-- Message "No deletable backups found to make space" (source `backup.js`
  line 353) -/
  | noDeletableBackups
  /-- the error of the underlying delete call, propagated (source
  `backup.js` line 350) -/
  | deleteFailed (id : Nat)
deriving DecidableEq

/-- Whether the error message instructs manual cleanup: only the
"Theme limit reached ... Please manually delete unused themes." message
does. -/
def capacityErrorInstructsManualCleanup : CapacityError → Bool
  | .themeLimitReachedNoBackups _ _ => true
  | _ => false

deriving instance DecidableEq for Except

/-- Outcome of `ensureThemeCapacity` plus the trace of issued deletes. -/
structure EnsureResult where
  outcome : Except CapacityError Unit
  deleteCalls : List Nat
deriving DecidableEq

/-- Function `ensureThemeCapacity` (source `backup.js` lines 324-355). -/
def ensureThemeCapacity (deleteFails : Nat → Bool) (themes : List Theme)
    (pfx : String) (maxThemes : Nat := 20) : EnsureResult :=
  let capacity := checkThemeCapacity themes maxThemes pfx
  if capacity.canCreate then ⟨.ok (), []⟩
  else if !capacity.needsCleanup then
    ⟨.error (.themeLimitReachedNoBackups capacity.current capacity.maxThemes), []⟩
  else
    let backups := sortByCreated (themes.filter (isBackupTheme pfx))
    match backups with
    | oldest :: _ =>
      if deleteFails oldest.id then ⟨.error (.deleteFailed oldest.id), [oldest.id]⟩
      else ⟨.ok (), [oldest.id]⟩
    | [] => ⟨.error .noDeletableBackups, []⟩

/-! ### Glob matching for the push patterns

Model of the glob language used by the Shopify CLI `--ignore` patterns:
`*` matches any run of characters except `/`, `**` any run of characters,
every other character matches itself. -/

def globMatchAux : Nat → List Char → List Char → Bool
  | 0, _, _ => false
  | fuel + 1, pat, s =>
    match pat, s with
    | [], [] => true
    | [], _ :: _ => false
    | '*' :: '*' :: ps, s =>
      globMatchAux fuel ps s ||
        (match s with
         | [] => false
         | _ :: s' => globMatchAux fuel ('*' :: '*' :: ps) s')
    | '*' :: ps, s =>
      globMatchAux fuel ps s ||
        (match s with
         | [] => false
         | c :: s' => (c != '/') && globMatchAux fuel ('*' :: ps) s')
    | _ :: _, [] => false
    | p :: ps, c :: s => (p == c) && globMatchAux fuel ps s

/-- Glob match with always-sufficient fuel (every recursive call shrinks
`pat.length + s.length`). -/
def globMatch (pat s : List Char) : Bool :=
  globMatchAux (pat.length + s.length + 1) pat s

/-- Whether any of the patterns matches the path. -/
def matchesAny (patterns : List String) (path : String) : Bool :=
  patterns.any (fun pat => globMatch pat.data path.data)

/-! ### Production deployment (`src/src/modes/production.js`)

The Theme Registry Client (`shopify-cli.js`) is not part of `src/`; it is
modelled as a mock over a list of themes, exactly as the spec's external
interface (section 6) describes it, and every registry call the
orchestrator issues is recorded in a trace.  Deployment-local effects of
the model: condition outcomes (which deletions fail, whether the build
succeeds, the timestamp, the id the platform assigns to a duplicate) live
in `DeployEnv`.  Slack and Microsoft Teams notifications and the build
tool are not registry calls and are not traced. -/

/-- One call to the remote theme registry. -/
inductive RegistryCall where
  | list
  | getLive
  | getById (id : Nat)
  | duplicate (sourceId : Nat) (name : String)
  | deleteTheme (id : Nat)
  | rename (id : Nat) (newName : String)
  | push (id : Nat) (only : List String) (ignore : List String)
      (nodelete : Bool) (allowLive : Bool)
  | openTheme (id : Nat)
deriving DecidableEq

/-- The deployment's environment: the registry's themes plus the oracles
for the outcomes that are outside the orchestrator's control. -/
structure DeployEnv where
  themes : List Theme
  deleteFails : Nat → Bool
  buildOk : Bool
  timestamp : String
  freshId : Nat
  now : Nat
  releaseVersion : Option String

/-- Running state: environment plus the trace of registry calls so far. -/
structure DeployState where
  env : DeployEnv
  trace : List RegistryCall

/-- Append a registry call to the trace. -/
def emit (c : RegistryCall) (s : DeployState) : DeployState :=
  { s with trace := s.trace ++ [c] }

/-- Function `getLiveTheme` of the registry client: the theme with the published
role. -/
def findLive (themes : List Theme) : Option Theme :=
  themes.find? (fun t => t.role == "main")

/-- Function `getThemeById` of the registry client. -/
def findById (i : Nat) (themes : List Theme) : Option Theme :=
  themes.find? (fun t => t.id == i)

/-- Remove a theme from the registry state. -/
def removeThemeById (i : Nat) (s : DeployState) : DeployState :=
  { s with env := { s.env with themes := s.env.themes.filter (fun t => t.id != i) } }

/-- The errors `productionDeploy` can raise, one per `throw` site of the
modelled paths. -/
inductive DeployError where
  | buildFailed
  | capacity (e : CapacityError)
  | noLiveThemeToBackup
  | prodThemeNotFound (id : Nat)
  | noLiveTheme
  /-- Message "Attempting to push to live theme but deploy.allow_live_push is
  false. ..." (source `production.js` lines 624-629) -/
  | livePushNotAllowed
  | renameThemeNotFound (id : Nat)
deriving DecidableEq

/-- Function `ensureThemeCapacity` as the orchestrator runs it (source `backup.js`
lines 324-355; same logic as the pure `ensureThemeCapacity` above):
outcome, registry calls issued (the capacity check lists the themes, the
cleanup branch lists them again and deletes the oldest eligible backup)
and the themes left in the registry. -/
def ensureThemeCapacityCalls (deleteFails : Nat → Bool)
    (themes : List Theme) (pfx : String) :
    Except DeployError Unit × List RegistryCall × List Theme :=
  let capacity := checkThemeCapacity themes 20 pfx
  if capacity.canCreate then (.ok (), [.list], themes)
  else if !capacity.needsCleanup then
    (.error (.capacity (.themeLimitReachedNoBackups capacity.current
      capacity.maxThemes)), [.list], themes)
  else
    let backups := sortByCreated (themes.filter (isBackupTheme pfx))
    match backups with
    | oldest :: _ =>
      if deleteFails oldest.id then
        (.error (.capacity (.deleteFailed oldest.id)),
          [.list, .list, .deleteTheme oldest.id], themes)
      else
        (.ok (), [.list, .list, .deleteTheme oldest.id],
          themes.filter (fun t => t.id != oldest.id))
    | [] => (.error (.capacity .noDeletableBackups), [.list, .list], themes)

/-- State threading of `ensureThemeCapacityCalls`. -/
def ensureThemeCapacityM (pfx : String) (s : DeployState) :
    Except DeployError Unit × DeployState :=
  let r := ensureThemeCapacityCalls s.env.deleteFails s.env.themes pfx
  (r.1, { env := { s.env with themes := r.2.2 }, trace := s.trace ++ r.2.1 })

/-- Function `createBackup` (source `backup.js` lines 15-51): name the backup
`prefix + timestamp`, look up the live theme, duplicate it
(`duplicateTheme`, lines 61-164, a pull-then-push sequence modelled as
the registry's duplicate operation creating an unpublished, settled
theme), then `waitForThemeProcessing` (lines 174-186) polls
`getThemeById` until the theme is no longer processing — one poll in the
model since the duplicate is created settled. -/
def createBackupCalls (env : DeployEnv) (pfx : String) :
    Except DeployError Theme × List RegistryCall × List Theme :=
  let backupName := pfx ++ env.timestamp
  match findLive env.themes with
  | none => (.error .noLiveThemeToBackup, [.getLive], env.themes)
  | some live =>
    let newTheme : Theme :=
      ⟨env.freshId, backupName, "unpublished", false, env.now⟩
    (.ok newTheme,
      [.getLive, .duplicate live.id backupName, .getById newTheme.id],
      env.themes ++ [newTheme])

/-- State threading of `createBackupCalls`. -/
def createBackupM (pfx : String) (s : DeployState) :
    Except DeployError Theme × DeployState :=
  let r := createBackupCalls s.env pfx
  (r.1, { env := { s.env with themes := r.2.2 }, trace := s.trace ++ r.2.1 })

/-- Function `cleanupBackups` as the orchestrator runs it: one list call, then the
delete calls computed by the pure `cleanupBackups`, removing the
successfully deleted themes from the registry. -/
def cleanupBackupsM (pfx : String) (retention : Nat) (s : DeployState) :
    Except DeployError CleanupResult × DeployState :=
  let r := cleanupBackups s.env.deleteFails s.env.themes pfx retention
  let deletedIds := r.deleted.map (fun t => t.id)
  (.ok r,
    { env := { s.env with
        themes := s.env.themes.filter (fun t => !deletedIds.contains t.id) },
      trace := s.trace ++ .list :: r.deleteCalls.map RegistryCall.deleteTheme })

/-- Return record of `renameThemeWithVersion`. -/
structure VersionResult where
  oldVersion : Option String
  version : String
  oldName : String
  name : String
  baseName : String
deriving DecidableEq

/-- Modelled from the spec: the `useExactVersion` branch of
`renameThemeWithVersion` is missing from `src/` (only its caller in
`production.js` and its tests are present; the copy of `versioning.js`
in `src/` still has the five-parameter revision, lines 131-183, which
the rest of this definition follows).  Spec section 4.4: "the engine may
adopt an externally supplied exact version string (e.g., from a release
process) verbatim as the new tag, bypassing bump arithmetic; falls back
to normal auto-increment if no external version is available". -/
def renameCalls (env : DeployEnv) (themeId : Nat) (format : String)
    (startVersion : Option String) (useExactVersion : Bool) :
    Except DeployError VersionResult × List RegistryCall × List Theme :=
  match findById themeId env.themes with
  | none => (.error (.renameThemeNotFound themeId), [.getById themeId], env.themes)
  | some theme =>
    let info := extractVersion theme.name
    -- if the theme has no version and a starting version is provided, use it
    let oldVersion :=
      match info.version with
      | some v => some v
      | none => startVersion
    let newVersion :=
      if useExactVersion then
        match startVersion with
        | some v => v
        | none => bumpVersion oldVersion format
      else bumpVersion oldVersion format
    let newName := info.baseName ++ " [" ++ newVersion ++ "]"
    (.ok ⟨oldVersion, newVersion, theme.name, newName, info.baseName⟩,
      [.getById themeId, .rename themeId newName],
      env.themes.map
        (fun t => if t.id == themeId then { t with name := newName } else t))

/-- State threading of `renameCalls`. -/
def renameThemeWithVersionM (themeId : Nat) (format : String)
    (startVersion : Option String) (useExactVersion : Bool)
    (s : DeployState) : Except DeployError VersionResult × DeployState :=
  let r := renameCalls s.env themeId format startVersion useExactVersion
  (r.1, { env := { s.env with themes := r.2.2 }, trace := s.trace ++ r.2.1 })

/-- The Phase A ignore patterns (source `production.js` lines 644-652). -/
def phaseAIgnorePatterns : List String :=
  ["templates/*.json", "templates/**/*.json", "sections/*.json",
   "snippets/*.json", "blocks/*.json", "config/settings_data.json",
   "locales/*.json"]

/-- The Phase B only-list (source `production.js` line 665). -/
def phaseBOnlyFiles : List String :=
  ["locales/en.default.json", "locales/en.default.schema.json"]

/-- Configuration slice of `productionDeploy` used by the modelled steps. -/
structure DeployConfig where
  dryRun : Bool
  buildEnabled : Bool
  backupEnabled : Bool
  backupPfx : String
  backupRetention : Nat
  productionThemeId : Option Nat
  allowLivePush : Bool
  ignoreJsonOnProd : Bool
  pushNodelete : Bool
  versioningEnabled : Bool
  versioningFormat : String
  versioningStart : Option String
  versioningSource : String

/-- Steps 2-3 of `productionDeploy` (source `production.js` lines
564-594): when backups are enabled, ensure capacity, create the backup,
enforce retention. -/
def backupPhase (cfg : DeployConfig) (s : DeployState) :
    Except DeployError (Option Theme) × DeployState :=
  if !cfg.backupEnabled then (.ok none, s)
  else
    match ensureThemeCapacityM cfg.backupPfx s with
    | (.error e, s) => (.error e, s)
    | (.ok _, s) =>
      match createBackupM cfg.backupPfx s with
      | (.error e, s) => (.error e, s)
      | (.ok b, s) =>
        match cleanupBackupsM cfg.backupPfx cfg.backupRetention s with
        | (.error e, s) => (.error e, s)
        | (.ok _, s) => (.ok (some b), s)

/-- Step 4 of `productionDeploy` (source `production.js` lines 596-635):
an explicitly configured production theme id is looked up and used as
is; otherwise fall back to the live theme, which additionally requires
`deploy.allow_live_push` — the check happens after the live theme
lookup. -/
def selectTarget (cfg : DeployConfig) (s : DeployState) :
    Except DeployError Theme × DeployState :=
  match cfg.productionThemeId with
  | some i =>
    let s := emit (.getById i) s
    match findById i s.env.themes with
    | none => (.error (.prodThemeNotFound i), s)
    | some t => (.ok t, s)
  | none =>
    let s := emit .getLive s
    match findLive s.env.themes with
    | none => (.error .noLiveTheme, s)
    | some t =>
      if !cfg.allowLivePush then (.error .livePushNotAllowed, s)
      else (.ok t, s)

/-- Step 5 of `productionDeploy` (source `production.js` lines 637-679):
selective mode pushes Phase A (everything minus the ignore patterns,
global nodelete) then Phase B (only the default locale files, nodelete
forced on); otherwise a single unfiltered push.  `allowLive` is always
true here. -/
def pushCallsOf (cfg : DeployConfig) (targetId : Nat) : List RegistryCall :=
  if cfg.ignoreJsonOnProd then
    [.push targetId [] phaseAIgnorePatterns cfg.pushNodelete true,
     .push targetId phaseBOnlyFiles [] true true]
  else [.push targetId [] [] cfg.pushNodelete true]

/-- State threading of `pushCallsOf` (the pushes change no registry
state in the model). -/
def pushPhase (cfg : DeployConfig) (targetId : Nat) (s : DeployState) :
    DeployState :=
  { s with trace := s.trace ++ pushCallsOf cfg targetId }

/-- The version-source wiring of step 6 (source `production.js` lines
689-703): with source `release` and an available release version, that
version is passed down with the use-exact flag set; otherwise the
configured starting version with the flag off. -/
def versionSourceInputs (source : String) (configStart : Option String)
    (releaseVersion : Option String) : Option String × Bool :=
  if source = "release" then
    match releaseVersion with
    | some v => (some v, true)
    | none => (configStart, false)
  else (configStart, false)

/-- Step 6 of `productionDeploy` (source `production.js` lines 684-721):
returns the new version (if any) and the target's display name after the
step. -/
def versioningPhase (cfg : DeployConfig) (targetId : Nat)
    (targetName : String) (s : DeployState) :
    Except DeployError (Option String × String) × DeployState :=
  if !cfg.versioningEnabled then (.ok (none, targetName), s)
  else
    let inputs := versionSourceInputs cfg.versioningSource
      cfg.versioningStart s.env.releaseVersion
    match renameThemeWithVersionM targetId cfg.versioningFormat
        inputs.1 inputs.2 s with
    | (.error e, s) => (.error e, s)
    | (.ok r, s) => (.ok (some r.version, r.name), s)

/-- Result record of `productionDeploy` (the fields the model tracks). -/
structure DeployResult where
  themeId : String
  themeName : String
  version : Option String
  backupId : Option Nat
  backupName : Option String
deriving DecidableEq

/-- Decimal rendering as a string, model of `id.toString()`. -/
def natToString (n : Nat) : String := String.mk (natDigits n)

/-- Function `productionDeploy` (source `production.js` lines 528-818, the
authoritative revision): dry-run early return, build, backup phase,
target selection, push phase, versioning, result assembly (the
`openTheme` url lookup is traced; notification delivery is outside the
registry model). -/
def productionDeployM (cfg : DeployConfig) (s0 : DeployState) :
    Except DeployError DeployResult × DeployState :=
  if cfg.dryRun then
    (.ok ⟨"dry-run-production-id", "PRODUCTION [0.0.1]", some "0.0.1", none, none⟩, s0)
  else if cfg.buildEnabled && !s0.env.buildOk then (.error .buildFailed, s0)
  else
    match backupPhase cfg s0 with
    | (.error e, s) => (.error e, s)
    | (.ok backupTheme, s) =>
      match selectTarget cfg s with
      | (.error e, s) => (.error e, s)
      | (.ok productionTheme, s) =>
        let s := pushPhase cfg productionTheme.id s
        match versioningPhase cfg productionTheme.id productionTheme.name s with
        | (.error e, s) => (.error e, s)
        | (.ok vr, s) =>
          let s := emit (.openTheme productionTheme.id) s
          (.ok ⟨natToString productionTheme.id, vr.2, vr.1,
            backupTheme.map (fun t => t.id),
            backupTheme.map (fun t => t.name)⟩, s)

/-! ### Auxiliary definitions used by the theorem statements -/

/-- Component-wise (lexicographic) strict order on parsed versions. -/
def versionLexLt (p q : ParsedVersion) : Prop :=
  p.major < q.major ∨
    (p.major = q.major ∧
      (p.minor < q.minor ∨ (p.minor = q.minor ∧ p.patch < q.patch)))

instance (p q : ParsedVersion) : Decidable (versionLexLt p q) := by
  unfold versionLexLt; infer_instance

/-- Whether a registry call is a content push. -/
def isPushCall : RegistryCall → Bool
  | .push _ _ _ _ _ => true
  | _ => false

/-- A backup theme named `BACKUP_<i>` created at time `i`. -/
def sampleBackup (i : Nat) : Theme :=
  ⟨i, "BACKUP_" ++ natToString i, "unpublished", false, i⟩

/-- The retention scenario of the spec: backups B1..B5 (listed out of
order) and a published theme whose name also matches the prefix. -/
def retentionSample : List Theme :=
  [⟨9, "BACKUP_live", "main", false, 0⟩,
   sampleBackup 5, sampleBackup 3, sampleBackup 1, sampleBackup 2, sampleBackup 4]

/-- Twenty themes where the only prefix-matching one is the published
theme: at capacity with zero eligible backups. -/
def capacitySampleThemes : List Theme :=
  ⟨0, "BACKUP_x", "main", false, 0⟩ ::
    (List.range 19).map (fun i => ⟨i + 1, "OTHER", "unpublished", false, i + 1⟩)

/-- A registry with a single published theme of id 1. -/
def c1Env : DeployEnv :=
  ⟨[⟨1, "LIVE", "main", false, 0⟩], fun _ => false, true, "01-01-25-00:00", 100, 10, none⟩

/-- Production config: no explicit target, live push not allowed, all
optional phases off, selective push on. -/
def c1FallbackCfg : DeployConfig :=
  ⟨false, false, false, "BACKUP_", 3, none, false, true, false, false,
   "X.XX.XX", none, "auto"⟩

/-- Same config but with the production theme id set explicitly to the
published theme's id. -/
def c1ExplicitCfg : DeployConfig :=
  { c1FallbackCfg with productionThemeId := some 1 }

/-- A registry with one published theme carrying a version tag, and a
GitHub release version available. -/
def c6Env : DeployEnv :=
  ⟨[⟨7, "PROD [1.0.4]", "main", false, 0⟩], fun _ => false, true, "t", 100, 10,
   some "1.0.9"⟩

/-- An operation that fails twice with a retryable error, then succeeds. -/
def retryTwiceFn : Nat → Except Nat Nat :=
  fun i => if i < 2 then .error 7 else .ok 42

/-- A condition that throws on the first poll, is falsy on the second and
truthy on the third. -/
def pollSampleCond : Nat → Except Unit (Option Nat) :=
  fun n => if n = 0 then .error () else if n = 1 then .ok none else .ok (some 5)

/-! ### Lemmas: decimal rendering round-trips -/

theorem digitChar_isDigit {d : Nat} (h : d < 10) : (digitChar d).isDigit = true := by
  interval_cases d <;> decide

theorem digitChar_toNat {d : Nat} (h : d < 10) : (digitChar d).toNat = 48 + d := by
  interval_cases d <;> decide

theorem natDigitsAux_digits :
    ∀ fuel n, ∀ c ∈ natDigitsAux fuel n, c.isDigit = true := by
  intro fuel
  induction fuel with
  | zero => intro n c hc; simp [natDigitsAux] at hc
  | succ f ih =>
    intro n c hc
    unfold natDigitsAux at hc
    by_cases h : n < 10
    · simp [h] at hc; subst hc; exact digitChar_isDigit h
    · simp [h] at hc
      rcases hc with hc | hc
      · exact ih _ _ hc
      · subst hc; exact digitChar_isDigit (Nat.mod_lt _ (by omega))

theorem natDigits_digits (n : Nat) : ∀ c ∈ natDigits n, c.isDigit = true :=
  natDigitsAux_digits _ n

theorem digitsToNat_append (ds : List Char) (c : Char) :
    digitsToNat (ds ++ [c]) = digitsToNat ds * 10 + (c.toNat - 48) := by
  unfold digitsToNat
  rw [List.foldl_append]
  rfl

theorem digitsToNat_natDigitsAux :
    ∀ fuel n, n < 10 ^ fuel → digitsToNat (natDigitsAux fuel n) = n := by
  intro fuel
  induction fuel with
  | zero =>
    intro n h
    simp [natDigitsAux, digitsToNat]
    omega
  | succ f ih =>
    intro n h
    unfold natDigitsAux
    by_cases h10 : n < 10
    · rw [if_pos h10]
      show digitsToNat [digitChar n] = n
      unfold digitsToNat
      simp [digitChar_toNat h10]
    · rw [if_neg h10, digitsToNat_append,
        ih _ (by rw [Nat.div_lt_iff_lt_mul (by omega)]; rw [pow_succ] at h; omega),
        digitChar_toNat (Nat.mod_lt _ (by omega))]
      omega

theorem nat_lt_ten_pow_succ (n : Nat) : n < 10 ^ (n + 1) :=
  Nat.lt_of_lt_of_le (Nat.lt_pow_self (by omega) n)
    (Nat.pow_le_pow_right (by omega) (by omega))

theorem digitsToNat_natDigits (n : Nat) : digitsToNat (natDigits n) = n :=
  digitsToNat_natDigitsAux _ _ (nat_lt_ten_pow_succ n)

theorem natDigits_ne_nil (n : Nat) : natDigits n ≠ [] := by
  unfold natDigits natDigitsAux
  by_cases h : n < 10 <;> simp [h]

theorem pad2_digits (n : Nat) : ∀ c ∈ pad2 n, c.isDigit = true := by
  intro c hc
  unfold pad2 at hc
  by_cases h : n < 10
  · rw [if_pos h] at hc
    rcases List.mem_cons.mp hc with hc | hc
    · subst hc; decide
    · exact natDigits_digits n c hc
  · rw [if_neg h] at hc
    exact natDigits_digits n c hc

theorem digitsToNat_pad2 (n : Nat) : digitsToNat (pad2 n) = n := by
  unfold pad2
  by_cases h : n < 10
  · rw [if_pos h]
    show digitsToNat ('0' :: natDigits n) = n
    have : digitsToNat ('0' :: natDigits n) = digitsToNat (natDigits n) := rfl
    rw [this, digitsToNat_natDigits]
  · rw [if_neg h, digitsToNat_natDigits]

theorem pad2_ne_nil (n : Nat) : pad2 n ≠ [] := by
  unfold pad2
  by_cases h : n < 10 <;> simp [h, natDigits_ne_nil]

/-! ### Lemmas: parsing a formatted version string -/

theorem takeWhile_of_all {p : Char → Bool} :
    ∀ ds : List Char, (∀ c ∈ ds, p c = true) → ds.takeWhile p = ds := by
  intro ds h
  induction ds with
  | nil => rfl
  | cons c cs ih =>
    rw [List.takeWhile_cons, h c (by simp), ih (fun x hx => h x (by simp [hx]))]
    simp

theorem jsParseIntOr0_digits (ds : List Char)
    (h : ∀ c ∈ ds, c.isDigit = true) : jsParseIntOr0 ds = digitsToNat ds := by
  unfold jsParseIntOr0
  rw [takeWhile_of_all ds h]

theorem isDigit_ne_dot {c : Char} (h : c.isDigit = true) : c ≠ '.' := by
  intro e; subst e; simp at h

theorem splitOnDot_no_dot :
    ∀ cs : List Char, (∀ x ∈ cs, x ≠ '.') → splitOnDot cs = [cs] := by
  intro cs h
  induction cs with
  | nil => rfl
  | cons c rest ih =>
    have hc : ¬(c = '.') := h c (by simp)
    unfold splitOnDot
    rw [if_neg hc, ih (fun x hx => h x (by simp [hx]))]

theorem splitOnDot_append (ds rest : List Char) (h : ∀ c ∈ ds, c ≠ '.') :
    splitOnDot (ds ++ '.' :: rest) = ds :: splitOnDot rest := by
  induction ds with
  | nil =>
    show splitOnDot ('.' :: rest) = [] :: splitOnDot rest
    simp [splitOnDot]
  | cons c cs ih =>
    have hc : ¬(c = '.') := h c (by simp)
    have ih2 := ih (fun x hx => h x (by simp [hx]))
    show splitOnDot (c :: (cs ++ '.' :: rest)) = (c :: cs) :: splitOnDot rest
    simp only [splitOnDot]
    rw [if_neg hc, ih2]

theorem parseVersionChars_three (a b c : List Char)
    (ha : ∀ x ∈ a, x.isDigit = true) (hb : ∀ x ∈ b, x.isDigit = true)
    (hc : ∀ x ∈ c, x.isDigit = true) :
    parseVersionChars (a ++ '.' :: b ++ '.' :: c) =
      ⟨digitsToNat a, digitsToNat b, digitsToNat c⟩ := by
  have hne2 : a ++ '.' :: b ++ '.' :: c ≠ [] := by simp
  have hassoc : a ++ '.' :: b ++ '.' :: c = a ++ '.' :: (b ++ '.' :: c) := by
    simp
  have h1 : splitOnDot (a ++ '.' :: (b ++ '.' :: c)) =
      a :: splitOnDot (b ++ '.' :: c) :=
    splitOnDot_append a _ (fun x hx => isDigit_ne_dot (ha x hx))
  have h2 : splitOnDot (b ++ '.' :: c) = b :: splitOnDot c :=
    splitOnDot_append b _ (fun x hx => isDigit_ne_dot (hb x hx))
  have h3 : splitOnDot c = [c] :=
    splitOnDot_no_dot c (fun x hx => isDigit_ne_dot (hc x hx))
  have hmap : List.map jsParseIntOr0 (splitOnDot (a ++ '.' :: b ++ '.' :: c)) =
      [digitsToNat a, digitsToNat b, digitsToNat c] := by
    rw [hassoc, h1, h2, h3]
    simp [jsParseIntOr0_digits a ha, jsParseIntOr0_digits b hb,
      jsParseIntOr0_digits c hc]
  unfold parseVersionChars
  rw [if_neg hne2]
  simp only [hmap]
  rfl

theorem parseVersion_formatVersion (a b c : Nat) (fmt : String) :
    parseVersion (formatVersion a b c fmt) = ⟨a, b, c⟩ := by
  unfold formatVersion parseVersion
  split_ifs
  · show parseVersionChars (natDigits a ++ '.' :: natDigits b ++ '.' :: natDigits c) = _
    rw [parseVersionChars_three _ _ _ (natDigits_digits a) (natDigits_digits b)
      (natDigits_digits c)]
    simp [digitsToNat_natDigits]
  · show parseVersionChars (natDigits a ++ '.' :: natDigits b ++ '.' :: pad2 c) = _
    rw [parseVersionChars_three _ _ _ (natDigits_digits a) (natDigits_digits b)
      (pad2_digits c)]
    simp [digitsToNat_natDigits, digitsToNat_pad2]
  · show parseVersionChars (natDigits a ++ '.' :: pad2 b ++ '.' :: pad2 c) = _
    rw [parseVersionChars_three _ _ _ (natDigits_digits a) (pad2_digits b)
      (pad2_digits c)]
    simp [digitsToNat_natDigits, digitsToNat_pad2]

theorem formatVersion_ne_empty (a b c : Nat) (fmt : String) :
    formatVersion a b c fmt ≠ "" := by
  unfold formatVersion
  split_ifs <;>
    · intro h
      have := congrArg String.data h
      simp at this

/-- With all components below 100 the `major*10000 + minor*100 + patch`
encoding is order-faithful for the lexicographic component order. -/
theorem encode_lt_iff_lex (p q : ParsedVersion)
    (h1 : p.minor ≤ 99) (h2 : p.patch ≤ 99)
    (h3 : q.minor ≤ 99) (h4 : q.patch ≤ 99) :
    p.major * 10000 + p.minor * 100 + p.patch <
      q.major * 10000 + q.minor * 100 + q.patch ↔ versionLexLt p q := by
  unfold versionLexLt
  omega

/-- With all components below 100 the encoding is injective. -/
theorem encode_eq_iff (p q : ParsedVersion)
    (h1 : p.minor ≤ 99) (h2 : p.patch ≤ 99)
    (h3 : q.minor ≤ 99) (h4 : q.patch ≤ 99) :
    p.major * 10000 + p.minor * 100 + p.patch =
      q.major * 10000 + q.minor * 100 + q.patch ↔ p = q := by
  cases p; cases q
  simp only [ParsedVersion.mk.injEq]
  simp at h1 h2 h3 h4
  omega

/-- The common sign pattern of `compareVersions`. -/
theorem compareSign_spec (n1 n2 : Nat) :
    ((if n1 < n2 then (-1 : Int) else if n1 > n2 then 1 else 0) = -1 ↔ n1 < n2) ∧
    ((if n1 < n2 then (-1 : Int) else if n1 > n2 then 1 else 0) = 1 ↔ n2 < n1) ∧
    ((if n1 < n2 then (-1 : Int) else if n1 > n2 then 1 else 0) = 0 ↔ n1 = n2) := by
  split_ifs with hlt hgt <;>
    refine ⟨Iff.intro (fun h => ?_) (fun h => ?_),
      Iff.intro (fun h => ?_) (fun h => ?_),
      Iff.intro (fun h => ?_) (fun h => ?_)⟩ <;>
    first
      | rfl
      | omega
      | (exact absurd h (by decide))

/-! ### Claim theorems: version engine (C4, C5, C10) -/

/-- C4 counterexample: the claim "for every valid version string and
every supported format, `bumpVersion` produces a version numerically
greater than its input" is false at the valid version `99.99.99`: the
code resets it to the format's zero form `0.00.01`, which compares
strictly less than the input. -/
theorem bumpVersion_majorOverflow_decreases :
    bumpVersion (some "99.99.99") "X.XX.XX" = "0.00.01" ∧
    compareVersions (some (bumpVersion (some "99.99.99") "X.XX.XX"))
      (some "99.99.99") = -1 ∧
    (parseVersion "99.99.99").major ≤ 99 ∧
    (parseVersion "99.99.99").minor ≤ 99 ∧
    (parseVersion "99.99.99").patch ≤ 99 := by
  decide

/-- C4 (amended): for every non-empty version string whose parsed
components are each at most 99 and that is not the maximal `99.99.99`,
and every format, `bumpVersion` strictly increases the version, both
under the code's own `compareVersions` order and under the
component-wise lexicographic order. -/
theorem bumpVersion_strictly_increases_below_max (v fmt : String)
    (hv : v ≠ "")
    (h1 : (parseVersion v).major ≤ 99) (h2 : (parseVersion v).minor ≤ 99)
    (h3 : (parseVersion v).patch ≤ 99)
    (h4 : ¬((parseVersion v).major = 99 ∧ (parseVersion v).minor = 99 ∧
      (parseVersion v).patch = 99)) :
    compareVersions (some (bumpVersion (some v) fmt)) (some v) = 1 ∧
    versionLexLt (parseVersion v) (parseVersion (bumpVersion (some v) fmt)) := by
  have hbump : ∃ x y z : Nat,
      bumpVersion (some v) fmt = formatVersion x y z fmt ∧
      versionLexLt (parseVersion v) ⟨x, y, z⟩ ∧
      (parseVersion v).major * 10000 + (parseVersion v).minor * 100 +
          (parseVersion v).patch < x * 10000 + y * 100 + z := by
    by_cases hpa : (parseVersion v).patch = 99
    · by_cases hmi : (parseVersion v).minor = 99
      · have hma : ¬((parseVersion v).major = 99) := fun h => h4 ⟨h, hmi, hpa⟩
        refine ⟨(parseVersion v).major + 1, 0, 0, ?_, ?_, by omega⟩
        · simp only [bumpVersion, bumpVersionCore, if_neg hv]
          rw [if_pos (by omega), if_pos (by omega), if_neg (by omega)]
        · exact Or.inl (Nat.lt_succ_self _)
      · refine ⟨(parseVersion v).major, (parseVersion v).minor + 1, 0, ?_, ?_, by omega⟩
        · simp only [bumpVersion, bumpVersionCore, if_neg hv]
          rw [if_pos (by omega), if_neg (by omega)]
        · exact Or.inr ⟨rfl, Or.inl (Nat.lt_succ_self _)⟩
    · refine ⟨(parseVersion v).major, (parseVersion v).minor,
        (parseVersion v).patch + 1, ?_, ?_, by omega⟩
      · simp only [bumpVersion, bumpVersionCore, if_neg hv]
        rw [if_neg (by omega)]
      · exact Or.inr ⟨rfl, Or.inr ⟨rfl, Nat.lt_succ_self _⟩⟩
  obtain ⟨x, y, z, heq, hlex, hnum⟩ := hbump
  have hpw : parseVersion (bumpVersion (some v) fmt) = ⟨x, y, z⟩ := by
    rw [heq, parseVersion_formatVersion]
  refine ⟨?_, by rw [hpw]; exact hlex⟩
  have hnemp : ¬(bumpVersion (some v) fmt = "" ∨ v = "") := by
    rw [heq]
    simp [formatVersion_ne_empty, hv]
  simp only [compareVersions, if_neg hnemp, hpw]
  rw [if_neg (by omega), if_pos (by omega)]

/-- C4 witness: the amended monotonicity theorem applied at the concrete
input `1.2.3` with format `X.X.X`. -/
theorem bumpVersion_strictly_increases_below_max_witness :
    compareVersions (some (bumpVersion (some "1.2.3") "X.X.X"))
      (some "1.2.3") = 1 ∧
    versionLexLt (parseVersion "1.2.3")
      (parseVersion (bumpVersion (some "1.2.3") "X.X.X")) :=
  bumpVersion_strictly_increases_below_max "1.2.3" "X.X.X" (by decide)
    (by decide) (by decide) (by decide) (by decide)

/-- C5: the rollover policy of `bumpVersion`.  A patch component of 99
rolls over to zero with the minor incremented; minor 99 likewise rolls
into the major; at `99.99.99` the whole version resets to the format's
zero form and the warning is emitted.  The three concrete spec examples
are included. -/
theorem bumpVersion_rollover_policy :
    (∀ (v fmt : String) (ma mi : Nat), v ≠ "" →
        parseVersion v = ⟨ma, mi, 99⟩ → mi ≤ 98 →
        bumpVersionCore (some v) fmt = (formatVersion ma (mi + 1) 0 fmt, false)) ∧
    (∀ (v fmt : String) (ma : Nat), v ≠ "" →
        parseVersion v = ⟨ma, 99, 99⟩ → ma ≤ 98 →
        bumpVersionCore (some v) fmt = (formatVersion (ma + 1) 0 0 fmt, false)) ∧
    (∀ (v fmt : String), v ≠ "" → parseVersion v = ⟨99, 99, 99⟩ →
        bumpVersionCore (some v) fmt = (zeroForm fmt, true)) ∧
    bumpVersion (some "0.0.99") "X.XX.XX" = "0.01.00" ∧
    bumpVersion (some "0.99.99") "X.XX.XX" = "1.00.00" ∧
    bumpVersionCore (some "99.99.99") "X.XX.XX" = ("0.00.01", true) := by
  refine ⟨?_, ?_, ?_, by decide, by decide, by decide⟩
  · intro v fmt ma mi hv hp hmi
    simp only [bumpVersionCore, if_neg hv, hp]
    split_ifs <;> first | rfl | omega
  · intro v fmt ma hv hp hma
    simp only [bumpVersionCore, if_neg hv, hp]
    split_ifs <;> first | rfl | omega
  · intro v fmt hv hp
    simp only [bumpVersionCore, if_neg hv, hp]
    split_ifs <;> first | rfl | omega

/-- C5 witness: the rollover theorem applied at the concrete input
`0.5.99` with format `X.XX.XX`. -/
theorem bumpVersion_rollover_policy_witness :
    bumpVersionCore (some "0.5.99") "X.XX.XX" =
      (formatVersion 0 6 0 "X.XX.XX", false) := by
  have h := bumpVersion_rollover_policy.1 "0.5.99" "X.XX.XX" 0 5
    (by decide) (by decide) (by decide)
  exact h

/-- C10: `compareVersions` returns 0 when either argument is null or
empty; on non-empty inputs with components at most 99 it agrees with the
component-wise (lexicographic) numeric order; outside that domain the
`major*10000 + minor*100 + patch` encoding can collapse distinct
versions, e.g. `1.0.0` and `0.100.0`. -/
theorem compareVersions_spec :
    (∀ v : Option String, compareVersions none v = 0 ∧
       compareVersions v none = 0 ∧ compareVersions (some "") v = 0 ∧
       compareVersions v (some "") = 0) ∧
    (∀ s1 s2 : String, s1 ≠ "" → s2 ≠ "" →
      (parseVersion s1).minor ≤ 99 → (parseVersion s1).patch ≤ 99 →
      (parseVersion s2).minor ≤ 99 → (parseVersion s2).patch ≤ 99 →
      (compareVersions (some s1) (some s2) = -1 ↔
        versionLexLt (parseVersion s1) (parseVersion s2)) ∧
      (compareVersions (some s1) (some s2) = 1 ↔
        versionLexLt (parseVersion s2) (parseVersion s1)) ∧
      (compareVersions (some s1) (some s2) = 0 ↔
        parseVersion s1 = parseVersion s2)) ∧
    (("1.0.0" : String) ≠ "0.100.0" ∧
      parseVersion "1.0.0" ≠ parseVersion "0.100.0" ∧
      compareVersions (some "1.0.0") (some "0.100.0") = 0) := by
  refine ⟨?_, ?_, by decide⟩
  · intro v
    cases v with
    | none => refine ⟨rfl, rfl, rfl, rfl⟩
    | some s => exact ⟨rfl, rfl, by simp [compareVersions], by simp [compareVersions]⟩
  · intro s1 s2 h1 h2 b1 b2 b3 b4
    have hne : ¬(s1 = "" ∨ s2 = "") := by simp [h1, h2]
    simp only [compareVersions, if_neg hne]
    exact ⟨(compareSign_spec _ _).1.trans
        (encode_lt_iff_lex (parseVersion s1) (parseVersion s2) b1 b2 b3 b4),
      (compareSign_spec _ _).2.1.trans
        (encode_lt_iff_lex (parseVersion s2) (parseVersion s1) b3 b4 b1 b2),
      (compareSign_spec _ _).2.2.trans
        (encode_eq_iff (parseVersion s1) (parseVersion s2) b1 b2 b3 b4)⟩

/-- C10 witness: the agreement theorem applied at the concrete pair
`1.2.3` and `1.10.0`. -/
theorem compareVersions_spec_witness :
    compareVersions (some "1.2.3") (some "1.10.0") = -1 ↔
      versionLexLt (parseVersion "1.2.3") (parseVersion "1.10.0") :=
  (compareVersions_spec.2.1 "1.2.3" "1.10.0" (by decide) (by decide)
    (by decide) (by decide) (by decide) (by decide)).1

/-! ### Lemmas: the stable ascending sort by creation time -/

theorem insertByCreated_perm (a : Theme) (l : List Theme) :
    (insertByCreated a l).Perm (a :: l) := by
  induction l with
  | nil => exact List.Perm.refl _
  | cons b bs ih =>
    unfold insertByCreated
    by_cases h : a.created_at ≤ b.created_at
    · rw [if_pos h]
    · rw [if_neg h]
      exact (ih.cons b).trans (List.Perm.swap a b bs)

theorem sortByCreated_perm (l : List Theme) : (sortByCreated l).Perm l := by
  induction l with
  | nil => exact List.Perm.refl _
  | cons a as ih =>
    show (insertByCreated a (sortByCreated as)).Perm (a :: as)
    exact (insertByCreated_perm a _).trans (ih.cons a)

theorem insertByCreated_pairwise (a : Theme) (l : List Theme)
    (h : l.Pairwise (fun t u => t.created_at ≤ u.created_at)) :
    (insertByCreated a l).Pairwise (fun t u => t.created_at ≤ u.created_at) := by
  induction l with
  | nil => simp [insertByCreated]
  | cons b bs ih =>
    rcases List.pairwise_cons.mp h with ⟨hb, hbs⟩
    unfold insertByCreated
    by_cases hab : a.created_at ≤ b.created_at
    · rw [if_pos hab]
      refine List.pairwise_cons.mpr ⟨?_, h⟩
      intro x hx
      rcases List.mem_cons.mp hx with rfl | hx
      · exact hab
      · exact le_trans hab (hb x hx)
    · rw [if_neg hab]
      refine List.pairwise_cons.mpr ⟨?_, ih hbs⟩
      intro x hx
      rcases List.mem_cons.mp ((insertByCreated_perm a bs).mem_iff.mp hx)
        with rfl | hx2
      · omega
      · exact hb x hx2

theorem sortByCreated_pairwise (l : List Theme) :
    (sortByCreated l).Pairwise (fun t u => t.created_at ≤ u.created_at) := by
  induction l with
  | nil => simp [sortByCreated]
  | cons a as ih => exact insertByCreated_pairwise a _ ih

/-- Membership in the retention filter unpacked. -/
theorem mem_backupFilter_props {pfx : String} {themes : List Theme}
    {t : Theme} (h : t ∈ themes.filter (isBackupTheme pfx)) :
    t ∈ themes ∧ strStartsWith t.name pfx = true ∧ t.role ≠ "main" := by
  rcases List.mem_filter.mp h with ⟨h1, h2⟩
  unfold isBackupTheme at h2
  simp only [Bool.and_eq_true] at h2
  exact ⟨h1, h2.1, by simpa using h2.2⟩

theorem cleanupLoop_eq (fails : Nat → Bool) (l : List Theme)
    (h : ∀ t ∈ l, t.role ≠ "main") :
    cleanupLoop fails l =
      (l.filter (fun t => !fails t.id), l.map (fun t => t.id)) := by
  induction l with
  | nil => rfl
  | cons t rest ih =>
    have ht : ¬(t.role = "main") := h t (by simp)
    unfold cleanupLoop
    rw [if_neg ht, ih (fun x hx => h x (by simp [hx]))]
    by_cases hf : fails t.id <;> simp [List.filter_cons, hf]

/-! ### Claim theorems: retention cleanup (C2) -/

/-- C2: retention cleanup filters to prefix-named non-published themes,
sorts ascending by creation time, deletes nothing when the filtered
count is at most the retention, otherwise issues deletes for exactly the
oldest `(count - retention)` of them (continuing past individual
failures, which drop out of `deleted` but stay in the issued calls),
returns `{deleted, remaining}` with `remaining` the newest `retention`
entries, and every delete call targets a prefix-named non-published
theme.  The spec's `B1..B5` retention-3 scenario with a published
prefix-matching theme present is included. -/
theorem cleanupBackups_spec (fails : Nat → Bool) (themes : List Theme)
    (pfx : String) (retention : Nat) :
    (((themes.filter (isBackupTheme pfx)).length ≤ retention) →
        cleanupBackups fails themes pfx retention =
          ⟨[], themes.filter (isBackupTheme pfx), []⟩) ∧
    (retention < (themes.filter (isBackupTheme pfx)).length →
      ∃ sorted : List Theme,
        sorted.Perm (themes.filter (isBackupTheme pfx)) ∧
        sorted.Pairwise (fun t u => t.created_at ≤ u.created_at) ∧
        cleanupBackups fails themes pfx retention =
          ⟨(sorted.take (sorted.length - retention)).filter
              (fun t => !fails t.id),
            sorted.drop (sorted.length - retention),
            (sorted.take (sorted.length - retention)).map (fun t => t.id)⟩) ∧
    (∀ i ∈ (cleanupBackups fails themes pfx retention).deleteCalls,
        ∃ t, t ∈ themes ∧ t.id = i ∧ strStartsWith t.name pfx = true ∧
          t.role ≠ "main") ∧
    cleanupBackups (fun _ => false) retentionSample "BACKUP_" 3 =
      ⟨[sampleBackup 1, sampleBackup 2],
       [sampleBackup 3, sampleBackup 4, sampleBackup 5], [1, 2]⟩ := by
  have hmain : ∀ t ∈ sortByCreated (themes.filter (isBackupTheme pfx)),
      t.role ≠ "main" := by
    intro t ht
    exact (mem_backupFilter_props
      ((sortByCreated_perm _).subset ht)).2.2
  have hmainTake : ∀ n, ∀ t ∈
      (sortByCreated (themes.filter (isBackupTheme pfx))).take n,
      t.role ≠ "main" := by
    intro n t ht
    exact hmain t (List.take_subset n _ ht)
  refine ⟨?_, ?_, ?_, by decide⟩
  · intro h
    unfold cleanupBackups
    rw [if_pos h]
  · intro h
    refine ⟨sortByCreated (themes.filter (isBackupTheme pfx)),
      sortByCreated_perm _, sortByCreated_pairwise _, ?_⟩
    simp only [cleanupBackups]
    rw [if_neg (by omega)]
    rw [cleanupLoop_eq fails _ (hmainTake _)]
  · intro i hi
    simp only [cleanupBackups] at hi
    by_cases h : (themes.filter (isBackupTheme pfx)).length ≤ retention
    · rw [if_pos h] at hi
      simp at hi
    · rw [if_neg h] at hi
      rw [cleanupLoop_eq fails _ (hmainTake _)] at hi
      simp only [List.mem_map] at hi
      rcases hi with ⟨t, ht, rfl⟩
      have htf : t ∈ themes.filter (isBackupTheme pfx) :=
        (sortByCreated_perm _).subset (List.take_subset _ _ ht)
      rcases mem_backupFilter_props htf with ⟨h1, h2, h3⟩
      exact ⟨t, h1, rfl, h2, h3⟩

/-- C2 witness: the cleanup theorem applied at an empty registry, where
the filtered count is within retention and nothing is deleted. -/
theorem cleanupBackups_spec_witness :
    cleanupBackups (fun _ => false) [] "BACKUP_" 3 = ⟨[], [], []⟩ :=
  (cleanupBackups_spec (fun _ => false) [] "BACKUP_" 3).1 (by decide)

/-! ### Claim theorems: capacity enforcement (C3) -/

/-- C3 counterexample: at exactly the platform cap with zero eligible
backups but with a prefix-named published theme present, the code fails
with the "No deletable backups found to make space" error, which does
not instruct manual cleanup as the claim requires (no deletions occur,
as the claim says). -/
theorem ensureThemeCapacity_publishedPrefix_counterexample :
    capacitySampleThemes.length = 20 ∧
    capacitySampleThemes.filter (isBackupTheme "BACKUP_") = [] ∧
    ensureThemeCapacity (fun _ => false) capacitySampleThemes "BACKUP_" =
      ⟨.error .noDeletableBackups, []⟩ ∧
    capacityErrorInstructsManualCleanup .noDeletableBackups = false := by
  decide

/-- C3 (amended): below the cap nothing is deleted and creation may
proceed; at or above the cap with at least one eligible backup exactly
the single oldest eligible backup is deleted; at or above the cap with
zero eligible backups it fails with no deletions, and the error
instructs manual cleanup precisely when no theme at all matches the
prefix (when the only prefix-matching themes are published, the failure
is the no-deletable-backups error instead); delete calls only ever
target prefix-named non-published themes. -/
theorem ensureThemeCapacity_spec (fails : Nat → Bool) (themes : List Theme)
    (pfx : String) :
    (themes.length < 20 →
        ensureThemeCapacity fails themes pfx = ⟨.ok (), []⟩) ∧
    (20 ≤ themes.length → themes.filter (isBackupTheme pfx) ≠ [] →
      ∃ t, t ∈ themes.filter (isBackupTheme pfx) ∧
        (∀ u ∈ themes.filter (isBackupTheme pfx),
          t.created_at ≤ u.created_at) ∧
        (fails t.id = false →
          ensureThemeCapacity fails themes pfx = ⟨.ok (), [t.id]⟩) ∧
        (fails t.id = true →
          ensureThemeCapacity fails themes pfx =
            ⟨.error (.deleteFailed t.id), [t.id]⟩)) ∧
    (20 ≤ themes.length → themes.filter (isBackupTheme pfx) = [] →
      (themes.filter (fun u => strStartsWith u.name pfx) = [] →
        ensureThemeCapacity fails themes pfx =
          ⟨.error (.themeLimitReachedNoBackups themes.length 20), []⟩) ∧
      (themes.filter (fun u => strStartsWith u.name pfx) ≠ [] →
        ensureThemeCapacity fails themes pfx =
          ⟨.error .noDeletableBackups, []⟩)) ∧
    capacityErrorInstructsManualCleanup
      (.themeLimitReachedNoBackups themes.length 20) = true ∧
    capacityErrorInstructsManualCleanup .noDeletableBackups = false ∧
    (∀ i ∈ (ensureThemeCapacity fails themes pfx).deleteCalls,
      ∃ t, t ∈ themes ∧ t.id = i ∧ strStartsWith t.name pfx = true ∧
        t.role ≠ "main") := by
  have hsub : ∀ t ∈ themes.filter (isBackupTheme pfx),
      t ∈ themes.filter (fun u => strStartsWith u.name pfx) := by
    intro t ht
    rcases List.mem_filter.mp ht with ⟨h1, h2⟩
    unfold isBackupTheme at h2
    simp only [Bool.and_eq_true] at h2
    exact List.mem_filter.mpr ⟨h1, h2.1⟩
  refine ⟨?_, ?_, ?_, rfl, rfl, ?_⟩
  · intro h
    unfold ensureThemeCapacity
    rw [if_pos (by simp [checkThemeCapacity]; omega)]
  · intro hlen hne
    have hsortne : sortByCreated (themes.filter (isBackupTheme pfx)) ≠ [] := by
      intro he
      have hp := sortByCreated_perm (themes.filter (isBackupTheme pfx))
      rw [he] at hp
      exact hne hp.nil_eq.symm
    rcases List.exists_cons_of_ne_nil hsortne with ⟨oldest, rest, hsort⟩
    have holdmem : oldest ∈ themes.filter (isBackupTheme pfx) :=
      (sortByCreated_perm _).subset
        (by rw [hsort]; exact List.mem_cons_self _ _)
    have hpw := sortByCreated_pairwise (themes.filter (isBackupTheme pfx))
    rw [hsort] at hpw
    rcases List.pairwise_cons.mp hpw with ⟨hhead, _⟩
    have hmin : ∀ u ∈ themes.filter (isBackupTheme pfx),
        oldest.created_at ≤ u.created_at := by
      intro u hu
      have hu2 : u ∈ oldest :: rest := by
        rw [← hsort]
        exact (sortByCreated_perm _).symm.subset hu
      rcases List.mem_cons.mp hu2 with rfl | hr
      · exact le_refl _
      · exact hhead u hr
    have hcc : ¬((checkThemeCapacity themes 20 pfx).canCreate = true) := by
      simp [checkThemeCapacity]
      omega
    have hbc : 0 < (themes.filter (fun u => strStartsWith u.name pfx)).length := by
      refine List.length_pos.mpr (fun he => ?_)
      have hm := hsub oldest holdmem
      rw [he] at hm
      simp at hm
    have hncln : (checkThemeCapacity themes 20 pfx).needsCleanup = true := by
      simp [checkThemeCapacity]
      exact ⟨by omega, hbc⟩
    refine ⟨oldest, holdmem, hmin, ?_, ?_⟩ <;>
      · intro hf
        unfold ensureThemeCapacity
        rw [if_neg hcc, if_neg (by simp [hncln]), hsort]
        simp [hf]
  · intro hlen helig
    have hcc : ¬((checkThemeCapacity themes 20 pfx).canCreate = true) := by
      simp [checkThemeCapacity]
      omega
    constructor
    · intro hpc
      have hncln : (checkThemeCapacity themes 20 pfx).needsCleanup = false := by
        simp [checkThemeCapacity, hpc]
      unfold ensureThemeCapacity
      rw [if_neg hcc, if_pos (by simp [hncln])]
      rfl
    · intro hpc
      have hbc : 0 < (themes.filter (fun u => strStartsWith u.name pfx)).length :=
        List.length_pos.mpr hpc
      have hncln : (checkThemeCapacity themes 20 pfx).needsCleanup = true := by
        simp [checkThemeCapacity]
        exact ⟨by omega, hbc⟩
      have hsnil : sortByCreated (themes.filter (isBackupTheme pfx)) = [] := by
        rw [helig]
        rfl
      unfold ensureThemeCapacity
      rw [if_neg hcc, if_neg (by simp [hncln]), hsnil]
  · intro i hi
    unfold ensureThemeCapacity at hi
    by_cases h1 : (checkThemeCapacity themes 20 pfx).canCreate = true
    · rw [if_pos h1] at hi
      simp at hi
    · rw [if_neg h1] at hi
      by_cases h2 : (!(checkThemeCapacity themes 20 pfx).needsCleanup) = true
      · rw [if_pos h2] at hi
        simp at hi
      · rw [if_neg h2] at hi
        rcases hsort : sortByCreated (themes.filter (isBackupTheme pfx))
          with _ | ⟨oldest, rest⟩
        · rw [hsort] at hi
          simp at hi
        · rw [hsort] at hi
          have hid : i = oldest.id := by
            by_cases hf : fails oldest.id <;> simp [hf] at hi <;> exact hi
          subst hid
          have holdmem : oldest ∈ themes.filter (isBackupTheme pfx) :=
            (sortByCreated_perm _).subset
              (by rw [hsort]; exact List.mem_cons_self _ _)
          rcases mem_backupFilter_props holdmem with ⟨ha, hb, hc⟩
          exact ⟨oldest, ha, rfl, hb, hc⟩

/-- C3 witness: the capacity theorem applied at an empty registry, which
is below the cap, so creation proceeds with no deletion. -/
theorem ensureThemeCapacity_spec_witness :
    ensureThemeCapacity (fun _ => false) [] "BACKUP_" = ⟨.ok (), []⟩ :=
  (ensureThemeCapacity_spec (fun _ => false) [] "BACKUP_").1 (by decide)

/-! ### Lemmas and claim theorems: retry executor (C8) -/

theorem range_map_min_succ (iD mD mult attempt k : Nat) :
    (List.range (k + 1)).map (fun i => min (iD * mult ^ (attempt + i)) mD) =
      min (iD * mult ^ attempt) mD ::
        (List.range k).map (fun i => min (iD * mult ^ (attempt + 1 + i)) mD) := by
  have hf : (fun i => min (iD * mult ^ (attempt + i)) mD) ∘ Nat.succ =
      fun i => min (iD * mult ^ (attempt + 1 + i)) mD := by
    funext i
    show min (iD * mult ^ (attempt + (i + 1))) mD = _
    rw [show attempt + (i + 1) = attempt + 1 + i from by omega]
  rw [List.range_succ_eq_map, List.map_cons, List.map_map, hf]
  simp

theorem withRetryGo_success {ε α : Type} (iD mD mult : Nat) (sR : ε → Bool)
    (fn : Nat → Except ε α) (v : α) :
    ∀ (k remaining attempt : Nat), k ≤ remaining →
    (∀ i, i < k → ∃ e, fn (attempt + i) = .error e ∧ sR e = true) →
    fn (attempt + k) = .ok v →
    withRetryGo iD mD mult sR fn remaining attempt =
      (.ok v, (List.range k).map (fun i => min (iD * mult ^ (attempt + i)) mD)) := by
  intro k
  induction k with
  | zero =>
    intro remaining attempt _ _ hok
    rw [show attempt + 0 = attempt from rfl] at hok
    cases remaining with
    | zero =>
      unfold withRetryGo
      split
      · next a heq => rw [hok] at heq; cases heq; rfl
      · next e heq => rw [hok] at heq; cases heq
    | succ r =>
      unfold withRetryGo
      split
      · next a heq => rw [hok] at heq; cases heq; rfl
      · next e heq => rw [hok] at heq; cases heq
  | succ k ih =>
    intro remaining attempt hle hfail hok
    obtain ⟨e, he, hr⟩ := hfail 0 (Nat.succ_pos k)
    rw [Nat.add_zero] at he
    obtain ⟨r, rfl⟩ : ∃ r, remaining = r + 1 := ⟨remaining - 1, by omega⟩
    unfold withRetryGo
    split
    · next a heq => rw [he] at heq; cases heq
    · next e2 heq =>
      rw [he] at heq
      cases heq
      rw [if_pos hr]
      simp only [ih r (attempt + 1) (by omega)
        (fun i hi => by
          have hh := hfail (i + 1) (by omega)
          rwa [show attempt + (i + 1) = attempt + 1 + i from by omega] at hh)
        (by rwa [show attempt + 1 + k = attempt + (k + 1) from by omega])]
      rw [range_map_min_succ]

theorem withRetryGo_exhaust {ε α : Type} (iD mD mult : Nat) (sR : ε → Bool)
    (fn : Nat → Except ε α) (errs : Nat → ε) :
    ∀ (remaining attempt : Nat),
    (∀ i, i ≤ remaining → fn (attempt + i) = .error (errs (attempt + i))) →
    (∀ i, i < remaining → sR (errs (attempt + i)) = true) →
    withRetryGo iD mD mult sR fn remaining attempt =
      (.error (errs (attempt + remaining)),
        (List.range remaining).map (fun i => min (iD * mult ^ (attempt + i)) mD)) := by
  intro remaining
  induction remaining with
  | zero =>
    intro attempt hf _
    have h0 := hf 0 (le_refl 0)
    rw [Nat.add_zero] at h0
    unfold withRetryGo
    split
    · next a heq => rw [h0] at heq; cases heq
    · next e heq =>
      rw [h0] at heq
      cases heq
      simp
  | succ r ih =>
    intro attempt hf hr
    have h0 := hf 0 (by omega)
    rw [Nat.add_zero] at h0
    have hs0 := hr 0 (by omega)
    rw [Nat.add_zero] at hs0
    unfold withRetryGo
    split
    · next a heq => rw [h0] at heq; cases heq
    · next e heq =>
      rw [h0] at heq
      cases heq
      rw [if_pos hs0]
      simp only [ih (attempt + 1)
        (fun i hi => by
          have hh := hf (i + 1) (by omega)
          rwa [show attempt + (i + 1) = attempt + 1 + i from by omega] at hh)
        (fun i hi => by
          have hh := hr (i + 1) (by omega)
          rwa [show attempt + (i + 1) = attempt + 1 + i from by omega] at hh)]
      rw [range_map_min_succ,
        show attempt + 1 + r = attempt + (r + 1) from by omega]

/-- C8: `withRetry` on an operation that fails with retryable errors on
the first `k` attempts (`k` at most the retry limit) and then succeeds
returns the success value after exactly `k` retries, the i-th wait being
`min(initialDelay * multiplier ^ i, maxDelay)`; a non-retryable error on
the first attempt propagates immediately with no waits; and when every
attempt up to the limit fails retryably, the error of the last attempt
is rethrown after the full wait schedule. -/
theorem withRetry_spec {ε α : Type} (retries iD mD mult : Nat)
    (sR : ε → Bool) (fn : Nat → Except ε α) :
    (∀ (k : Nat) (v : α), k ≤ retries →
      (∀ i, i < k → ∃ e, fn i = .error e ∧ sR e = true) →
      fn k = .ok v →
      withRetry retries iD mD mult sR fn =
        (.ok v, (List.range k).map (fun i => min (iD * mult ^ i) mD))) ∧
    (∀ e, fn 0 = .error e → sR e = false →
      withRetry retries iD mD mult sR fn = (.error e, [])) ∧
    (∀ errs : Nat → ε,
      (∀ i, i ≤ retries → fn i = .error (errs i)) →
      (∀ i, i < retries → sR (errs i) = true) →
      withRetry retries iD mD mult sR fn =
        (.error (errs retries),
          (List.range retries).map (fun i => min (iD * mult ^ i) mD))) := by
  refine ⟨?_, ?_, ?_⟩
  · intro k v hk hfail hok
    have hh := withRetryGo_success iD mD mult sR fn v k retries 0 hk
      (fun i hi => by simpa using hfail i hi) (by simpa using hok)
    unfold withRetry
    simpa using hh
  · intro e h0 hsr
    unfold withRetry
    cases retries with
    | zero =>
      unfold withRetryGo
      split
      · next a heq => rw [h0] at heq; cases heq
      · next e2 heq => rw [h0] at heq; cases heq; rfl
    | succ r =>
      unfold withRetryGo
      split
      · next a heq => rw [h0] at heq; cases heq
      · next e2 heq =>
        rw [h0] at heq
        cases heq
        rw [if_neg (by simp [hsr])]
  · intro errs hf hr
    have hh := withRetryGo_exhaust iD mD mult sR fn errs retries 0
      (fun i hi => by simpa using hf i hi)
      (fun i hi => by simpa using hr i hi)
    unfold withRetry
    simpa using hh

/-- C8 witness: the retry theorem applied to an operation failing twice
retryably then succeeding, under the default policy (3 retries, delays
1000ms doubling, cap 30000ms): success after 2 retries with waits
1000 and 2000. -/
theorem withRetry_spec_witness :
    withRetry 3 1000 30000 2 (fun _ => true) retryTwiceFn = (.ok 42, [1000, 2000]) := by
  have h := (withRetry_spec 3 1000 30000 2 (fun _ => true) retryTwiceFn).1 2 42
    (by omega)
    (fun i hi => ⟨7, by simp [retryTwiceFn, hi]⟩)
    (by decide)
  exact h.trans (by decide)

/-! ### Lemmas and claim theorems: poll-until (C9) -/

theorem pollUntilGo_success {α : Type} (cond : Nat → Except Unit (Option α))
    (interval timeout : Nat) (msg : String) (a : α) :
    ∀ (m fuel n : Nat), m < fuel →
    (∀ k, k < m → cond (n + k) = .error () ∨ cond (n + k) = .ok none) →
    cond (n + m) = .ok (some a) →
    (n + m) * interval < timeout →
    pollUntilGo cond interval timeout msg fuel n = .ok a := by
  intro m
  induction m with
  | zero =>
    intro fuel n hf _ hok htime
    obtain ⟨f, rfl⟩ : ∃ f, fuel = f + 1 := ⟨fuel - 1, by omega⟩
    rw [Nat.add_zero] at hok htime
    unfold pollUntilGo
    rw [if_pos htime, hok]
  | succ m ih =>
    intro fuel n hf hnot hok htime
    obtain ⟨f, rfl⟩ : ∃ f, fuel = f + 1 := ⟨fuel - 1, by omega⟩
    have hmono : n * interval ≤ (n + (m + 1)) * interval :=
      Nat.mul_le_mul_right _ (by omega)
    have hmono1 : (n + 1) * interval ≤ (n + (m + 1)) * interval :=
      Nat.mul_le_mul_right _ (by omega)
    have hexp : (n + 1) * interval = n * interval + interval := by ring
    have hcont : (if n * interval + interval > timeout then
          PollResult.timeoutErr msg (n * interval)
        else pollUntilGo cond interval timeout msg f (n + 1)) = .ok a := by
      rw [if_neg (by omega)]
      exact ih f (n + 1) (by omega)
        (fun k hk => by
          have hh := hnot (k + 1) (by omega)
          rwa [show n + (k + 1) = n + 1 + k from by omega] at hh)
        (by rwa [show n + (m + 1) = n + 1 + m from by omega] at hok)
        (by rwa [show n + (m + 1) = n + 1 + m from by omega] at htime)
    unfold pollUntilGo
    rw [if_pos (by omega)]
    rcases h0 : cond (n + 0) with u | ho
    · rw [Nat.add_zero] at h0
      rw [h0]
      exact hcont
    · rw [Nat.add_zero] at h0
      rcases ho with _ | b
      · rw [h0]
        exact hcont
      · rcases hnot 0 (by omega) with hx | hx <;>
          · rw [Nat.add_zero] at hx
            rw [h0] at hx
            cases hx

theorem pollUntilGo_timeout {α : Type} (cond : Nat → Except Unit (Option α))
    (interval timeout : Nat) (msg : String) :
    ∀ (fuel n : Nat), n * interval ≤ timeout →
    ∀ m e, pollUntilGo cond interval timeout msg fuel n = .timeoutErr m e →
    m = msg ∧ e ≤ timeout := by
  intro fuel
  induction fuel with
  | zero =>
    intro n hn m e h
    unfold pollUntilGo at h
    cases h
    exact ⟨rfl, hn⟩
  | succ f ih =>
    intro n hn m e h
    unfold pollUntilGo at h
    by_cases hlt : n * interval < timeout
    · rw [if_pos hlt] at h
      have hfall : (if n * interval + interval > timeout then
            PollResult.timeoutErr msg (n * interval)
          else pollUntilGo cond interval timeout msg f (n + 1)) =
            PollResult.timeoutErr m e → m = msg ∧ e ≤ timeout := by
        intro hh
        by_cases ht : n * interval + interval > timeout
        · rw [if_pos ht] at hh
          cases hh
          exact ⟨rfl, by omega⟩
        · rw [if_neg ht] at hh
          have hexp : (n + 1) * interval = n * interval + interval := by ring
          exact ih (n + 1) (by omega) m e hh
      rcases hc : cond n with u | ho
      · rw [hc] at h
        exact hfall h
      · rcases ho with _ | a
        · rw [hc] at h
          exact hfall h
        · rw [hc] at h
          cases h
    · rw [if_neg hlt] at h
      cases h
      exact ⟨rfl, hn⟩

/-- C9: an error thrown by one invocation of the condition is swallowed
and polling continues (such invocations are allowed freely before the
satisfying one); when the condition produces a truthy value in time,
`pollUntil` returns exactly that value; and any timeout failure carries
the configured message with an elapsed time at failure never exceeding
the configured timeout (the check happens before sleeping). -/
theorem pollUntil_spec {α : Type} (cond : Nat → Except Unit (Option α))
    (interval timeout : Nat) (msg : String) :
    (∀ (m : Nat) (a : α), 0 < interval →
      (∀ k, k < m → cond k = .error () ∨ cond k = .ok none) →
      cond m = .ok (some a) → m * interval < timeout →
      pollUntil cond interval timeout msg = .ok a) ∧
    (∀ m2 e, pollUntil cond interval timeout msg = .timeoutErr m2 e →
      m2 = msg ∧ e ≤ timeout) := by
  constructor
  · intro m a hint hnot hok htime
    unfold pollUntil
    have hm : m ≤ m * interval := Nat.le_mul_of_pos_right m hint
    exact pollUntilGo_success cond interval timeout msg a m (timeout + 1) 0
      (by omega)
      (fun k hk => by simpa using hnot k hk)
      (by simpa using hok)
      (by simpa using htime)
  · intro m2 e h
    exact pollUntilGo_timeout cond interval timeout msg (timeout + 1) 0
      (by simp) m2 e h

/-- C9 witness: the poll theorem applied to a condition that throws on
poll 0, is falsy on poll 1 and truthy on poll 2, with a 5ms interval and
a 1000ms timeout: the thrown error is swallowed and the truthy value is
returned. -/
theorem pollUntil_spec_witness :
    pollUntil pollSampleCond 5 1000 "waiting" = .ok 5 := by
  refine (pollUntil_spec pollSampleCond 5 1000 "waiting").1 2 5 (by omega)
    (fun k hk => ?_) (by decide) (by omega)
  interval_cases k
  · exact Or.inl (by decide)
  · exact Or.inr (by decide)

/-! ### Lemmas: registry-call traces of the production deployment -/

theorem ensureThemeCapacityM_trace (pfx : String) (s : DeployState) :
    (ensureThemeCapacityM pfx s).2.trace = s.trace ++
      (ensureThemeCapacityCalls s.env.deleteFails s.env.themes pfx).2.1 := rfl

theorem createBackupM_trace (pfx : String) (s : DeployState) :
    (createBackupM pfx s).2.trace = s.trace ++
      (createBackupCalls s.env pfx).2.1 := rfl

theorem cleanupBackupsM_trace (pfx : String) (retention : Nat)
    (s : DeployState) :
    (cleanupBackupsM pfx retention s).2.trace = s.trace ++
      .list :: (cleanupBackups s.env.deleteFails s.env.themes pfx
        retention).deleteCalls.map RegistryCall.deleteTheme := rfl

theorem renameThemeWithVersionM_trace (themeId : Nat) (format : String)
    (sv : Option String) (ue : Bool) (s : DeployState) :
    (renameThemeWithVersionM themeId format sv ue s).2.trace = s.trace ++
      (renameCalls s.env themeId format sv ue).2.1 := rfl

theorem ensureThemeCapacityCalls_noPush (deleteFails : Nat → Bool)
    (themes : List Theme) (pfx : String) :
    ∀ c ∈ (ensureThemeCapacityCalls deleteFails themes pfx).2.1,
      isPushCall c = false := by
  simp only [ensureThemeCapacityCalls]
  split_ifs with h1 h2
  · simp [isPushCall]
  · simp [isPushCall]
  · split
    · split_ifs with h3
      · simp [isPushCall]
      · simp [isPushCall]
    · simp [isPushCall]

theorem createBackupCalls_noPush (env : DeployEnv) (pfx : String) :
    ∀ c ∈ (createBackupCalls env pfx).2.1, isPushCall c = false := by
  unfold createBackupCalls
  split
  · simp [isPushCall]
  · simp [isPushCall]

theorem cleanupCalls_noPush (deleteFails : Nat → Bool) (themes : List Theme)
    (pfx : String) (retention : Nat) :
    ∀ c ∈ RegistryCall.list ::
        (cleanupBackups deleteFails themes pfx retention).deleteCalls.map
          RegistryCall.deleteTheme,
      isPushCall c = false := by
  intro c hc
  rcases List.mem_cons.mp hc with rfl | hc
  · rfl
  · rcases List.mem_map.mp hc with ⟨i, _, rfl⟩
    rfl

theorem renameCalls_noPush (env : DeployEnv) (themeId : Nat)
    (format : String) (sv : Option String) (ue : Bool) :
    ∀ c ∈ (renameCalls env themeId format sv ue).2.1,
      isPushCall c = false := by
  unfold renameCalls
  split
  · simp [isPushCall]
  · simp [isPushCall]

theorem backupPhase_trace (cfg : DeployConfig) (s : DeployState) :
    ∃ ext, (backupPhase cfg s).2.trace = s.trace ++ ext ∧
      ∀ c ∈ ext, isPushCall c = false := by
  unfold backupPhase
  by_cases hb : cfg.backupEnabled = true
  · rw [if_neg (by simp [hb])]
    split
    · next e s1 heq =>
      have htr : s1.trace = s.trace ++
          (ensureThemeCapacityCalls s.env.deleteFails s.env.themes
            cfg.backupPfx).2.1 := by
        rw [show s1 = (ensureThemeCapacityM cfg.backupPfx s).2 from by rw [heq]]
        exact ensureThemeCapacityM_trace cfg.backupPfx s
      exact ⟨_, htr, ensureThemeCapacityCalls_noPush s.env.deleteFails
        s.env.themes cfg.backupPfx⟩
    · next u s1 heq =>
      have ht1 : s1.trace = s.trace ++
          (ensureThemeCapacityCalls s.env.deleteFails s.env.themes
            cfg.backupPfx).2.1 := by
        rw [show s1 = (ensureThemeCapacityM cfg.backupPfx s).2 from by rw [heq]]
        exact ensureThemeCapacityM_trace cfg.backupPfx s
      split
      · next e s2 heq2 =>
        have htr : s2.trace = s.trace ++
            ((ensureThemeCapacityCalls s.env.deleteFails s.env.themes
                cfg.backupPfx).2.1 ++
              (createBackupCalls s1.env cfg.backupPfx).2.1) := by
          rw [show s2 = (createBackupM cfg.backupPfx s1).2 from by rw [heq2],
            createBackupM_trace, ht1, List.append_assoc]
        refine ⟨_, htr, ?_⟩
        intro c hcm
        rcases List.mem_append.mp hcm with h | h
        · exact ensureThemeCapacityCalls_noPush _ _ _ c h
        · exact createBackupCalls_noPush _ _ c h
      · next b s2 heq2 =>
        have ht2 : s2.trace = (s.trace ++
            (ensureThemeCapacityCalls s.env.deleteFails s.env.themes
              cfg.backupPfx).2.1) ++ (createBackupCalls s1.env
                cfg.backupPfx).2.1 := by
          rw [show s2 = (createBackupM cfg.backupPfx s1).2 from by rw [heq2],
            createBackupM_trace, ht1]
        have hnp3 : ∀ c ∈ (ensureThemeCapacityCalls s.env.deleteFails
              s.env.themes cfg.backupPfx).2.1 ++
              ((createBackupCalls s1.env cfg.backupPfx).2.1 ++
                .list :: (cleanupBackups s2.env.deleteFails s2.env.themes
                  cfg.backupPfx cfg.backupRetention).deleteCalls.map
                    RegistryCall.deleteTheme),
            isPushCall c = false := by
          intro c hcm
          rcases List.mem_append.mp hcm with h | h
          · exact ensureThemeCapacityCalls_noPush _ _ _ c h
          · rcases List.mem_append.mp h with h | h
            · exact createBackupCalls_noPush _ _ c h
            · exact cleanupCalls_noPush _ _ _ _ c h
        split
        · next e s3 heq3 =>
          have htr : s3.trace = s.trace ++
              ((ensureThemeCapacityCalls s.env.deleteFails s.env.themes
                  cfg.backupPfx).2.1 ++
                ((createBackupCalls s1.env cfg.backupPfx).2.1 ++
                  .list :: (cleanupBackups s2.env.deleteFails s2.env.themes
                    cfg.backupPfx cfg.backupRetention).deleteCalls.map
                      RegistryCall.deleteTheme)) := by
            rw [show s3 = (cleanupBackupsM cfg.backupPfx cfg.backupRetention
              s2).2 from by rw [heq3], cleanupBackupsM_trace, ht2,
              List.append_assoc, List.append_assoc]
          exact ⟨_, htr, hnp3⟩
        · next r s3 heq3 =>
          have htr : s3.trace = s.trace ++
              ((ensureThemeCapacityCalls s.env.deleteFails s.env.themes
                  cfg.backupPfx).2.1 ++
                ((createBackupCalls s1.env cfg.backupPfx).2.1 ++
                  .list :: (cleanupBackups s2.env.deleteFails s2.env.themes
                    cfg.backupPfx cfg.backupRetention).deleteCalls.map
                      RegistryCall.deleteTheme)) := by
            rw [show s3 = (cleanupBackupsM cfg.backupPfx cfg.backupRetention
              s2).2 from by rw [heq3], cleanupBackupsM_trace, ht2,
              List.append_assoc, List.append_assoc]
          exact ⟨_, htr, hnp3⟩
  · rw [if_pos (by simp [Bool.not_eq_true] at hb; simp [hb])]
    exact ⟨[], by simp, by simp⟩

theorem selectTarget_trace (cfg : DeployConfig) (s : DeployState) :
    ∃ ext, (selectTarget cfg s).2.trace = s.trace ++ ext ∧
      ∀ c ∈ ext, isPushCall c = false := by
  unfold selectTarget emit
  rcases hp : cfg.productionThemeId with _ | i
  · dsimp only
    rcases hf : findLive s.env.themes with _ | t
    · exact ⟨[.getLive], rfl, by simp [isPushCall]⟩
    · split_ifs with h
      · exact ⟨[.getLive], rfl, by simp [isPushCall]⟩
      · exact ⟨[.getLive], rfl, by simp [isPushCall]⟩
  · dsimp only
    rcases hf : findById i s.env.themes with _ | t
    · exact ⟨[.getById i], rfl, by simp [isPushCall]⟩
    · exact ⟨[.getById i], rfl, by simp [isPushCall]⟩

theorem pushPhase_trace (cfg : DeployConfig) (targetId : Nat)
    (s : DeployState) :
    (pushPhase cfg targetId s).trace = s.trace ++ pushCallsOf cfg targetId :=
  rfl

theorem pushCallsOf_shapes (cfg : DeployConfig) (targetId : Nat) :
    ∀ c ∈ pushCallsOf cfg targetId,
      (cfg.ignoreJsonOnProd = true →
        c = .push targetId [] phaseAIgnorePatterns cfg.pushNodelete true ∨
        c = .push targetId phaseBOnlyFiles [] true true) ∧
      (cfg.ignoreJsonOnProd = false →
        c = .push targetId [] [] cfg.pushNodelete true) := by
  unfold pushCallsOf
  split_ifs with h
  · intro c hc
    refine ⟨fun _ => ?_, fun hf => ?_⟩
    · rcases List.mem_cons.mp hc with rfl | hc
      · exact Or.inl rfl
      · rcases List.mem_cons.mp hc with rfl | hc
        · exact Or.inr rfl
        · simp at hc
    · rw [h] at hf
      cases hf
  · intro c hc
    refine ⟨fun ht => ?_, fun _ => ?_⟩
    · rw [ht] at h
      exact absurd rfl h
    · rcases List.mem_cons.mp hc with rfl | hc
      · rfl
      · simp at hc

theorem versioningPhase_trace (cfg : DeployConfig) (targetId : Nat)
    (targetName : String) (s : DeployState) :
    ∃ ext, (versioningPhase cfg targetId targetName s).2.trace =
      s.trace ++ ext ∧ ∀ c ∈ ext, isPushCall c = false := by
  unfold versioningPhase
  split_ifs with h
  · exact ⟨[], by simp, by simp⟩
  · dsimp only
    split
    · next e s1 heq =>
      have htr : s1.trace = s.trace ++
          (renameCalls s.env targetId cfg.versioningFormat
            (versionSourceInputs cfg.versioningSource cfg.versioningStart
              s.env.releaseVersion).1
            (versionSourceInputs cfg.versioningSource cfg.versioningStart
              s.env.releaseVersion).2).2.1 := by
        rw [show s1 = (renameThemeWithVersionM targetId cfg.versioningFormat
          (versionSourceInputs cfg.versioningSource cfg.versioningStart
            s.env.releaseVersion).1
          (versionSourceInputs cfg.versioningSource cfg.versioningStart
            s.env.releaseVersion).2 s).2 from by rw [heq]]
        exact renameThemeWithVersionM_trace _ _ _ _ _
      exact ⟨_, htr, renameCalls_noPush _ _ _ _ _⟩
    · next r s1 heq =>
      have htr : s1.trace = s.trace ++
          (renameCalls s.env targetId cfg.versioningFormat
            (versionSourceInputs cfg.versioningSource cfg.versioningStart
              s.env.releaseVersion).1
            (versionSourceInputs cfg.versioningSource cfg.versioningStart
              s.env.releaseVersion).2).2.1 := by
        rw [show s1 = (renameThemeWithVersionM targetId cfg.versioningFormat
          (versionSourceInputs cfg.versioningSource cfg.versioningStart
            s.env.releaseVersion).1
          (versionSourceInputs cfg.versioningSource cfg.versioningStart
            s.env.releaseVersion).2 s).2 from by rw [heq]]
        exact renameThemeWithVersionM_trace _ _ _ _ _
      exact ⟨_, htr, renameCalls_noPush _ _ _ _ _⟩


theorem productionDeployM_pushShapes (cfg : DeployConfig) (s : DeployState) :
    ∃ ext, (productionDeployM cfg s).2.trace = s.trace ++ ext ∧
      ∀ c ∈ ext, isPushCall c = true →
        ∃ id, (cfg.ignoreJsonOnProd = true →
                c = .push id [] phaseAIgnorePatterns cfg.pushNodelete true ∨
                c = .push id phaseBOnlyFiles [] true true) ∧
              (cfg.ignoreJsonOnProd = false →
                c = .push id [] [] cfg.pushNodelete true) := by
  unfold productionDeployM
  split_ifs with hdry hbuild
  · exact ⟨[], by simp, by simp⟩
  · exact ⟨[], by simp, by simp⟩
  · obtain ⟨ext1, hext1, hnp1⟩ := backupPhase_trace cfg s
    split
    · next e s1 heq =>
      have ht1 : s1.trace = s.trace ++ ext1 := by
        rw [show s1 = (backupPhase cfg s).2 from by rw [heq]]
        exact hext1
      refine ⟨ext1, ht1, ?_⟩
      intro c hc hp
      rw [hnp1 c hc] at hp
      cases hp
    · next bth s1 heq =>
      have ht1 : s1.trace = s.trace ++ ext1 := by
        rw [show s1 = (backupPhase cfg s).2 from by rw [heq]]
        exact hext1
      obtain ⟨ext2, hext2, hnp2⟩ := selectTarget_trace cfg s1
      split
      · next e s2 heq2 =>
        have ht2 : s2.trace = s.trace ++ (ext1 ++ ext2) := by
          rw [show s2 = (selectTarget cfg s1).2 from by rw [heq2], hext2, ht1,
            List.append_assoc]
        refine ⟨_, ht2, ?_⟩
        intro c hc hp
        rcases List.mem_append.mp hc with h | h
        · rw [hnp1 c h] at hp; cases hp
        · rw [hnp2 c h] at hp; cases hp
      · next t s2 heq2 =>
        have ht2 : s2.trace = s.trace ++ (ext1 ++ ext2) := by
          rw [show s2 = (selectTarget cfg s1).2 from by rw [heq2], hext2, ht1,
            List.append_assoc]
        obtain ⟨ext4, hext4, hnp4⟩ :=
          versioningPhase_trace cfg t.id t.name (pushPhase cfg t.id s2)
        have ht3 : (pushPhase cfg t.id s2).trace =
            s.trace ++ (ext1 ++ (ext2 ++ pushCallsOf cfg t.id)) := by
          rw [pushPhase_trace, ht2]
          simp [List.append_assoc]
        dsimp only
        split
        · next e s4 heq3 =>
          have ht4 : s4.trace = s.trace ++
              (ext1 ++ (ext2 ++ (pushCallsOf cfg t.id ++ ext4))) := by
            rw [show s4 = (versioningPhase cfg t.id t.name
              (pushPhase cfg t.id s2)).2 from by rw [heq3], hext4, ht3]
            simp [List.append_assoc]
          refine ⟨_, ht4, ?_⟩
          intro c hc hp
          rcases List.mem_append.mp hc with h | h
          · rw [hnp1 c h] at hp; cases hp
          · rcases List.mem_append.mp h with h | h
            · rw [hnp2 c h] at hp; cases hp
            · rcases List.mem_append.mp h with h | h
              · obtain ⟨h1, h2⟩ := pushCallsOf_shapes cfg t.id c h
                exact ⟨t.id, h1, h2⟩
              · rw [hnp4 c h] at hp; cases hp
        · next vr s4 heq3 =>
          have ht4 : s4.trace = s.trace ++
              (ext1 ++ (ext2 ++ (pushCallsOf cfg t.id ++ ext4))) := by
            rw [show s4 = (versioningPhase cfg t.id t.name
              (pushPhase cfg t.id s2)).2 from by rw [heq3], hext4, ht3]
            simp [List.append_assoc]
          have ht5 : (emit (.openTheme t.id) s4).trace = s.trace ++
              (ext1 ++ (ext2 ++ (pushCallsOf cfg t.id ++
                (ext4 ++ [.openTheme t.id])))) := by
            show s4.trace ++ [RegistryCall.openTheme t.id] = _
            rw [ht4]
            simp [List.append_assoc]
          refine ⟨_, ht5, ?_⟩
          intro c hc hp
          rcases List.mem_append.mp hc with h | h
          · rw [hnp1 c h] at hp; cases hp
          · rcases List.mem_append.mp h with h | h
            · rw [hnp2 c h] at hp; cases hp
            · rcases List.mem_append.mp h with h | h
              · obtain ⟨h1, h2⟩ := pushCallsOf_shapes cfg t.id c h
                exact ⟨t.id, h1, h2⟩
              · rcases List.mem_append.mp h with h | h
                · rw [hnp4 c h] at hp; cases hp
                · simp at h
                  subst h
                  cases hp

theorem selectTarget_fallback_result (cfg : DeployConfig) (s : DeployState)
    (hid : cfg.productionThemeId = none) (hallow : cfg.allowLivePush = false) :
    (∃ e, (selectTarget cfg s).1 = .error e) ∧
    (selectTarget cfg s).2.trace = s.trace ++ [.getLive] ∧
    (∀ t, findLive s.env.themes = some t →
      (selectTarget cfg s).1 = .error .livePushNotAllowed) := by
  unfold selectTarget emit
  rw [hid]
  dsimp only
  rcases hf : findLive s.env.themes with _ | t
  · exact ⟨⟨.noLiveTheme, rfl⟩, rfl, fun u hu => by simp at hu⟩
  · dsimp only
    rw [if_pos (by simp [hallow])]
    exact ⟨⟨.livePushNotAllowed, rfl⟩, rfl, fun u hu => rfl⟩

/-! ### Claim theorems: live-push guard (C1) -/

/-- C1 counterexample: with no explicit production id, live push not
allowed and a live theme present, the deployment does fail with the
guard error, but at the moment the error is raised one registry call
(the live-theme lookup) has already been made, not zero; and with an
explicit production theme id that happens to be the published theme and
the allow-flag still false, no guard fires at all: the run succeeds and
pushes are issued against the published theme. -/
theorem livePushGuard_counterexample :
    ((productionDeployM c1FallbackCfg ⟨c1Env, []⟩).1 =
        .error .livePushNotAllowed ∧
      (productionDeployM c1FallbackCfg ⟨c1Env, []⟩).2.trace = [.getLive] ∧
      ([.getLive] : List RegistryCall) ≠ []) ∧
    ((productionDeployM c1ExplicitCfg ⟨c1Env, []⟩).1.isOk = true ∧
      (productionDeployM c1ExplicitCfg ⟨c1Env, []⟩).2.trace.any isPushCall =
        true ∧
      (findLive c1Env.themes).map (fun t => t.id) = some 1 ∧
      c1ExplicitCfg.productionThemeId = some 1 ∧
      c1ExplicitCfg.allowLivePush = false) := by
  decide

/-- C1 (amended): for every production deployment that resolves its
target through the live-theme fallback (no explicit production theme id)
with the allow-flag false, no push call is ever issued and every
non-dry-run run fails; when the optional build and backup phases are off
and a live theme exists, the failure is precisely the live-push guard
error, raised after exactly one registry call, the live-theme lookup. -/
theorem livePushGuard_fallback (cfg : DeployConfig) (env : DeployEnv)
    (hid : cfg.productionThemeId = none) (hallow : cfg.allowLivePush = false) :
    (∀ c ∈ (productionDeployM cfg ⟨env, []⟩).2.trace, isPushCall c = false) ∧
    (cfg.dryRun = false →
      ∃ e, (productionDeployM cfg ⟨env, []⟩).1 = .error e) ∧
    (cfg.dryRun = false → cfg.buildEnabled = false →
      cfg.backupEnabled = false →
      ∀ t, findLive env.themes = some t →
        (productionDeployM cfg ⟨env, []⟩).1 = .error .livePushNotAllowed ∧
        (productionDeployM cfg ⟨env, []⟩).2.trace = [.getLive]) := by
  refine ⟨?_, ?_, ?_⟩
  · unfold productionDeployM
    split_ifs with hdry hbuild
    · simp
    · simp
    · obtain ⟨ext1, hext1, hnp1⟩ := backupPhase_trace cfg ⟨env, []⟩
      split
      · next e s1 heq =>
        intro c hc
        have hc2 : c ∈ s1.trace := hc
        have ht1 : s1.trace = [] ++ ext1 := by
          rw [show s1 = (backupPhase cfg ⟨env, []⟩).2 from by rw [heq]]
          exact hext1
        rw [ht1] at hc2
        simp only [List.nil_append] at hc2
        exact hnp1 c hc2
      · next bth s1 heq =>
        have ht1 : s1.trace = [] ++ ext1 := by
          rw [show s1 = (backupPhase cfg ⟨env, []⟩).2 from by rw [heq]]
          exact hext1
        split
        · next e2 s2 heq2 =>
          intro c hc
          have hc2 : c ∈ s2.trace := hc
          have ht2 : s2.trace = ext1 ++ [.getLive] := by
            rw [show s2 = (selectTarget cfg s1).2 from by rw [heq2],
              (selectTarget_fallback_result cfg s1 hid hallow).2.1, ht1]
            simp
          rw [ht2] at hc2
          rcases List.mem_append.mp hc2 with h | h
          · exact hnp1 c h
          · simp at h
            subst h
            rfl
        · next t s2 heq2 =>
          obtain ⟨⟨e2, he2⟩, _, _⟩ :=
            selectTarget_fallback_result cfg s1 hid hallow
          rw [heq2] at he2
          simp at he2
  · intro hdryF
    unfold productionDeployM
    split_ifs with hdry hbuild
    · rw [hdryF] at hdry; cases hdry
    · exact ⟨.buildFailed, rfl⟩
    · split
      · next e s1 heq => exact ⟨e, rfl⟩
      · next bth s1 heq =>
        split
        · next e2 s2 heq2 => exact ⟨e2, rfl⟩
        · next t s2 heq2 =>
          obtain ⟨⟨e2, he2⟩, _, _⟩ :=
            selectTarget_fallback_result cfg s1 hid hallow
          rw [heq2] at he2
          simp at he2
  · intro h1 h2 h3 t ht
    obtain ⟨⟨e2, he2⟩, htr2, hres2⟩ :=
      selectTarget_fallback_result cfg ⟨env, []⟩ hid hallow
    have hres3 := hres2 t ht
    have hbp : backupPhase cfg ⟨env, []⟩ = (.ok none, ⟨env, []⟩) := by
      unfold backupPhase
      rw [if_pos (by simp [h3])]
    unfold productionDeployM
    rw [if_neg (by simp [h1]), if_neg (by simp [h2]), hbp]
    dsimp only
    rcases hsel : selectTarget cfg ⟨env, []⟩ with ⟨o, s2⟩
    rw [hsel] at hres3 htr2
    dsimp only at hres3 htr2
    subst hres3
    simp only [List.nil_append] at htr2
    exact ⟨rfl, htr2⟩

/-- C1 witness: the amended guard theorem applied at the concrete
fallback config and the registry with a single published theme: the run
fails with the live-push guard error after exactly one registry call. -/
theorem livePushGuard_fallback_witness :
    (productionDeployM c1FallbackCfg ⟨c1Env, []⟩).1 =
        .error .livePushNotAllowed ∧
    (productionDeployM c1FallbackCfg ⟨c1Env, []⟩).2.trace = [.getLive] :=
  (livePushGuard_fallback c1FallbackCfg c1Env (by decide) (by decide)).2.2
    (by decide) (by decide) (by decide)
    ⟨1, "LIVE", "main", false, 0⟩ (by decide)

/-! ### Claim theorems: selective push phases (C7) -/

/-- C7: in selective mode every push call the deployment issues is
either the Phase A call (empty only-list, the volatile ignore patterns,
the global nodelete flag) or the Phase B call, whose only-list is
exactly the default-locale allow-list and whose remote deletion is
disabled regardless of the global nodelete setting; every path of that
allow-list is matched by Phase A's ignore patterns; hence, for any local
file tree, the files Phase A writes (those surviving the ignore
patterns) are disjoint from the files Phase B writes. -/
theorem selectivePush_phaseB_spec (cfg : DeployConfig) (env : DeployEnv)
    (hsel : cfg.ignoreJsonOnProd = true) :
    (∀ c ∈ (productionDeployM cfg ⟨env, []⟩).2.trace, isPushCall c = true →
      ∃ id, c = .push id [] phaseAIgnorePatterns cfg.pushNodelete true ∨
            c = .push id phaseBOnlyFiles [] true true) ∧
    (∀ p ∈ phaseBOnlyFiles, matchesAny phaseAIgnorePatterns p = true) ∧
    (∀ files : List String, ∀ f ∈ phaseBOnlyFiles,
      f ∉ files.filter (fun g => !matchesAny phaseAIgnorePatterns g)) := by
  refine ⟨?_, by decide, ?_⟩
  · obtain ⟨ext, hext, hcls⟩ := productionDeployM_pushShapes cfg ⟨env, []⟩
    intro c hc hp
    rw [hext] at hc
    simp only [List.nil_append] at hc
    obtain ⟨id, h1, _⟩ := hcls c hc hp
    exact ⟨id, h1 hsel⟩
  · intro files f hf hmem
    rcases List.mem_filter.mp hmem with ⟨_, hg⟩
    have hmatch : matchesAny phaseAIgnorePatterns f = true := by
      simp only [phaseBOnlyFiles, List.mem_cons, List.not_mem_nil,
        or_false] at hf
      rcases hf with rfl | rfl <;> decide
    rw [hmatch] at hg
    simp at hg

/-- C7 witness: the theorem applied at the concrete selective-mode
config, extracting the fact that both default-locale paths are matched
by the Phase A ignore patterns. -/
theorem selectivePush_phaseB_spec_witness :
    matchesAny phaseAIgnorePatterns "locales/en.default.json" = true ∧
    matchesAny phaseAIgnorePatterns "locales/en.default.schema.json" = true :=
  ⟨(selectivePush_phaseB_spec c1ExplicitCfg c1Env (by decide)).2.1
      "locales/en.default.json" (by decide),
    (selectivePush_phaseB_spec c1ExplicitCfg c1Env (by decide)).2.1
      "locales/en.default.schema.json" (by decide)⟩

/-! ### Claim theorems: external version source (C6) -/

/-- C6 (spec-modelled): with version source `release` and a release
version available, the rename adopts that version string verbatim as the
new tag, bypassing bump arithmetic; with no release version available it
falls back to the normal auto-increment of the theme's current tag (or
of the configured starting version when the theme has no tag). -/
theorem releaseVersionSource_spec (format : String)
    (configStart : Option String) (themeId : Nat) (s : DeployState)
    (theme : Theme) (hfind : findById themeId s.env.themes = some theme) :
    (∀ v : String, s.env.releaseVersion = some v →
      ∃ r : VersionResult,
        (renameThemeWithVersionM themeId format
          (versionSourceInputs "release" configStart s.env.releaseVersion).1
          (versionSourceInputs "release" configStart s.env.releaseVersion).2
          s).1 = .ok r ∧
        r.version = v ∧
        r.name = (extractVersion theme.name).baseName ++ " [" ++ v ++ "]") ∧
    (s.env.releaseVersion = none →
      ∃ r : VersionResult,
        (renameThemeWithVersionM themeId format
          (versionSourceInputs "release" configStart s.env.releaseVersion).1
          (versionSourceInputs "release" configStart s.env.releaseVersion).2
          s).1 = .ok r ∧
        r.version = bumpVersion
          (match (extractVersion theme.name).version with
           | some ov => some ov
           | none => configStart) format) := by
  constructor
  · intro v hrel
    rw [hrel]
    have hvsi : versionSourceInputs "release" configStart (some v) =
        (some v, true) := rfl
    rw [hvsi]
    have hres : (renameCalls s.env themeId format (some v) true).1 =
        .ok ⟨(match (extractVersion theme.name).version with
              | some ov => some ov
              | none => some v),
          v, theme.name,
          (extractVersion theme.name).baseName ++ " [" ++ v ++ "]",
          (extractVersion theme.name).baseName⟩ := by
      unfold renameCalls
      rw [hfind]
      rfl
    exact ⟨_, hres, rfl, rfl⟩
  · intro hrel
    rw [hrel]
    have hvsi : versionSourceInputs "release" configStart none =
        (configStart, false) := rfl
    rw [hvsi]
    have hres : (renameCalls s.env themeId format configStart false).1 =
        .ok ⟨(match (extractVersion theme.name).version with
              | some ov => some ov
              | none => configStart),
          bumpVersion (match (extractVersion theme.name).version with
            | some ov => some ov
            | none => configStart) format,
          theme.name,
          (extractVersion theme.name).baseName ++ " [" ++
            bumpVersion (match (extractVersion theme.name).version with
              | some ov => some ov
              | none => configStart) format ++ "]",
          (extractVersion theme.name).baseName⟩ := by
      unfold renameCalls
      rw [hfind]
      rfl
    exact ⟨_, hres, rfl⟩

/-- C6 witness: the theorem applied at the concrete registry `c6Env`
holding the published theme `PROD [1.0.4]` and release version `1.0.9`:
the rename adopts `1.0.9` verbatim. -/
theorem releaseVersionSource_spec_witness :
    ((renameThemeWithVersionM 7 "X.X.X"
        (versionSourceInputs "release" none c6Env.releaseVersion).1
        (versionSourceInputs "release" none c6Env.releaseVersion).2
        ⟨c6Env, []⟩).1.toOption.map VersionResult.version) = some "1.0.9" := by
  obtain ⟨r, h1, h2, h3⟩ := (releaseVersionSource_spec "X.X.X" none 7 ⟨c6Env, []⟩
    ⟨7, "PROD [1.0.4]", "main", false, 0⟩ (by decide)).1 "1.0.9" (by decide)
  rw [h1]
  simp [Except.toOption, h2]

end STDM
